import Mathlib

/-!
Shallow embedding of the dependency-graph renderer implemented in
colcon_package_information/verb/list.py: the list verb's ASCII adjacency
matrix (with its density metric) and its DOT graph output (node naming,
clustering, categorized edges).  Package discovery, topological ordering,
package selection and the recursive run-dependency closure are external
collaborators (colcon_core); they enter the model as already-computed data
on the decorator records, exactly as the renderer receives them.
-/

namespace ColconList

/-- Dependency categories of a colcon package descriptor. -/
inductive Category where
  | build
  | run
  | test
deriving DecidableEq, Inhabited, Repr

/-- Filesystem path, split into an absolute-or-relative flag and its
components.  Models the Python pathlib.Path / os.path values used for
clustering. -/
structure FsPath where
  absolute : Bool
  components : List String
deriving DecidableEq, Inhabited, Repr

/-- Models a colcon_core PackageDescriptor: display name, filesystem path and
the mapping from dependency category to declared dependency names.  The id
field stands for Python object identity (the value id(descriptor) that
get_node_data interpolates into node tokens). -/
structure PackageDescriptor where
  id : Nat
  name : String
  path : FsPath
  dependencies : List (Category × List String)
deriving DecidableEq, Inhabited, Repr

/-- Models a colcon PackageDecorator as handed to the renderer by
topological_order_packages and select_package_decorators: the descriptor, the
selection flag, and the precomputed recursive run-dependency closure
(a set of names, modelled as a list). -/
structure PackageDecorator where
  descriptor : PackageDescriptor
  selected : Bool
  recursive_dependencies : List String
deriving DecidableEq, Inhabited, Repr

/-- descriptor.get_dependencies(): the dependency names declared under any
category (list.py line 117). -/
def depsUnion (d : PackageDescriptor) : List String :=
  (d.dependencies.map Prod.snd).flatten

/-- The selected package names with multiplicity (list.py lines 156-157
before the set() conversion). -/
def selectedPkgNamesList (decorators : List PackageDecorator) : List String :=
  (decorators.filter (fun m => m.selected)).map (fun m => m.descriptor.name)

/-- has_duplicate_names (list.py lines 158-159): the selected-names list is
longer than the set of selected names. -/
def has_duplicate_names (decorators : List PackageDecorator) : Bool :=
  decide ((selectedPkgNamesList decorators).length ≠
    (selectedPkgNamesList decorators).dedup.length)

/-- shown_decorators (list.py line 110): the selected decorators in order. -/
def shownDecorators (decorators : List PackageDecorator) : List PackageDecorator :=
  decorators.filter (fun d => d.selected)

/-- max_length (list.py lines 111-112): max name length, at least 0. -/
def maxNameLength (shown : List PackageDecorator) : Nat :=
  (shown.map (fun m => m.descriptor.name.length)).foldr max 0

/-- str.ljust(width) with spaces. -/
def ljust (s : String) (width : Nat) : String :=
  s.pushn ' ' (width - s.length)

/-- The character appended to row j while processing column i of the ASCII
matrix: the if/elif chain of list.py lines 127-138.  recF models the
externally computed descriptor.get_recursive_dependencies closure. -/
def cellChar (shown : List PackageDecorator)
    (recF : PackageDescriptor → List String) (i j : Nat) : Char :=
  if j = i then '+'
  else if (shown.getD j default).descriptor.name ∈
      depsUnion (shown.getD i default).descriptor then '*'
  else if (shown.getD j default).descriptor.name ∈
      recF (shown.getD i default).descriptor then '.'
  else ' '

/-- One inner-loop iteration of list.py lines 126-139: append this cell's
character to line j, counting empty cells. -/
def matrixStep (shown : List PackageDecorator)
    (recF : PackageDescriptor → List String) (i : Nat)
    (st : List String × Nat) (j : Nat) : List String × Nat :=
  if j = i then
    (st.1.set j ((st.1.getD j "").push '+'), st.2)
  else if (shown.getD j default).descriptor.name ∈
      depsUnion (shown.getD i default).descriptor then
    (st.1.set j ((st.1.getD j "").push '*'), st.2)
  else if (shown.getD j default).descriptor.name ∈
      recF (shown.getD i default).descriptor then
    (st.1.set j ((st.1.getD j "").push '.'), st.2)
  else
    (st.1.set j ((st.1.getD j "").push ' '), st.2 + 1)

/-- The ASCII matrix builder of list.py lines 109-139: rows seeded with the
left-justified names, then the two nested loops appending one cell character
per (i, j) pair, threading the empty-cell counter. -/
def matrixCompute (shown : List PackageDecorator)
    (recF : PackageDescriptor → List String) : List String × Nat :=
  let lines := shown.map (fun m => ljust m.descriptor.name (maxNameLength shown + 2))
  (List.range shown.length).foldl (fun st i =>
    (List.range shown.length).foldl (fun st2 j => matrixStep shown recF i st2 j) st)
    (lines, 0)

/-- Key of an edge map: the source descriptor object paired with the target
dependency name (list.py line 183 comment: the descriptor is used because
there might be packages with the same name). -/
abbrev EdgeKey := PackageDescriptor × String

/-- Insertion-ordered map from edge keys to category sets, modelling the
Python defaultdict(set) used for direct_edges and indirect_edges. -/
abbrev EdgeMap := List (EdgeKey × List Category)

/-- The categories stored under a key (empty when the key is absent). -/
def lookupCats : EdgeMap → EdgeKey → List Category
  | [], _ => []
  | e :: rest, k => if e.1 = k then e.2 else lookupCats rest k

/-- The keys of an edge map. -/
def edgeKeys (m : EdgeMap) : List EdgeKey :=
  m.map Prod.fst

/-- edges[key].add(category) on the defaultdict(set): create the entry when
missing, otherwise add the category to the existing set. -/
def addEdge : EdgeMap → EdgeKey → Category → EdgeMap
  | [], k, c => [(k, [c])]
  | e :: rest, k, c =>
    if e.1 = k then (e.1, if c ∈ e.2 then e.2 else e.2 ++ [c]) :: rest
    else e :: addEdge rest k c

/-- Fold a sequence of (key, category) additions into an edge map. -/
def applyEvents (m : EdgeMap) (evs : List (EdgeKey × Category)) : EdgeMap :=
  evs.foldl (fun acc e => addEdge acc e.1 e.2) m

/-- direct_edges (list.py lines 169-183): for each selected decorator, in
reverse order, record every declared dependency whose name is a selected
package name under its category. -/
def directEdges (decorators : List PackageDecorator) : EdgeMap :=
  decorators.reverse.foldl (fun m deco =>
    if deco.selected then
      deco.descriptor.dependencies.foldl (fun m2 cd =>
        cd.2.foldl (fun m3 dep =>
          if dep ∈ selectedPkgNamesList decorators then
            addEdge m3 (deco.descriptor, dep) cd.1
          else m3) m2) m
    else m) []

/-- decorators_by_name[n] (list.py lines 152-154): every decorator of the
full set whose descriptor bears the name. -/
def decoratorsNamed (decorators : List PackageDecorator) (n : String) :
    List PackageDecorator :=
  decorators.filter (fun deco => deco.descriptor.name = n)

/-- indirect_edges (list.py lines 185-211): for each selected decorator and
each declared dependency that is not a selected name but is some known
decorator's name, walk the precomputed recursive run-dependency closures of
every decorator bearing that name; each closure member that is a selected
name yields an indirect edge under the first-hop category, unless a direct
edge already exists for the same key. -/
def indirectEdges (decorators : List PackageDecorator) (direct : EdgeMap) :
    EdgeMap :=
  decorators.reverse.foldl (fun m deco =>
    if deco.selected then
      deco.descriptor.dependencies.foldl (fun m2 cd =>
        cd.2.foldl (fun m3 dep =>
          if dep ∈ selectedPkgNamesList decorators then m3
          else if (decoratorsNamed decorators dep).isEmpty then m3
          else
            ((decoratorsNamed decorators dep).map
              (fun d => d.recursive_dependencies)).flatten.foldl (fun m4 rdep =>
                if rdep ∈ selectedPkgNamesList decorators then
                  if (deco.descriptor, rdep) ∈ edgeKeys direct then m4
                  else addEdge m4 (deco.descriptor, rdep) cd.1
                else m4) m3) m2) m
    else m) []

/-- get_node_data (list.py lines 220-230): the identity token and extra
attribute text for a descriptor, depending on has_duplicate_names. -/
def get_node_data (hasDup : Bool) (d : PackageDescriptor) : String × String :=
  if !hasDup then (d.name, "")
  else (d.name ++ "_" ++ toString d.id,
    " [label = \"" ++ d.name ++ "\"]")

/-- Path(p).parent: drop the last component. -/
def parentDir (p : FsPath) : FsPath :=
  ⟨p.absolute, p.components.dropLast⟩

/-- Insert into the OrderedDict keyed by descriptor (list.py line 167):
overwrite in place when present, append when new. -/
def odInsert (ns : List (PackageDescriptor × FsPath)) (k : PackageDescriptor)
    (v : FsPath) : List (PackageDescriptor × FsPath) :=
  if ns.any (fun e => e.1 = k) then
    ns.map (fun e => if e.1 = k then (e.1, v) else e)
  else ns ++ [(k, v)]

/-- nodes (list.py lines 162-167): selected descriptors mapped to the parent
directory of their path, gathered over the reversed decorator list. -/
def nodesList (decorators : List PackageDecorator) :
    List (PackageDescriptor × FsPath) :=
  decorators.reverse.foldl (fun ns deco =>
    if deco.selected then odInsert ns deco.descriptor (parentDir deco.descriptor.path)
    else ns) []

/-- The longest shared leading component run of two component lists. -/
def sharedLead : List String → List String → List String
  | a :: as, b :: bs => if a = b then a :: sharedLead as bs else []
  | _, _ => []

/-- Models os.path.commonpath (list.py lines 213-218): none on an empty
input or a mix of absolute and relative paths (the ValueError branch),
otherwise the longest common path. -/
def commonPath (ps : List FsPath) : Option FsPath :=
  match ps with
  | [] => none
  | p :: rest =>
    if rest.all (fun q => q.absolute = p.absolute) then
      some ⟨p.absolute, rest.foldl (fun acc q => sharedLead acc q.components)
        p.components⟩
    else none

/-- PurePath.relative_to(base) for a base that is an ancestor: drop the
leading base components, yielding a relative path. -/
def relativeTo (p base : FsPath) : FsPath :=
  ⟨false, p.components.drop base.components.length⟩

/-- PurePath.name: the final component, empty for an empty path. -/
def pathName (p : FsPath) : String :=
  p.components.getLast?.getD ""

/-- str(p) for the relative cluster paths interpolated into labels. -/
def pathText (p : FsPath) : String :=
  if p.absolute then "/" ++ String.intercalate "/" p.components
  else if p.components.isEmpty then "." else String.intercalate "/" p.components

/-- clusters[key].add(desc): create the entry when missing, otherwise add the
descriptor to the existing set. -/
def clusterAdd (cl : List (FsPath × List PackageDescriptor)) (k : FsPath)
    (d : PackageDescriptor) : List (FsPath × List PackageDescriptor) :=
  if cl.any (fun e => e.1 = k) then
    cl.map (fun e =>
      if e.1 = k then (e.1, if d ∈ e.2 then e.2 else e.2 ++ [d]) else e)
  else cl ++ [(k, [d])]

/-- clusters (list.py lines 240-242): group the node descriptors by their
parent directory relative to the common path. -/
def clustersOf (nodes : List (PackageDescriptor × FsPath)) (common : FsPath) :
    List (FsPath × List PackageDescriptor) :=
  nodes.foldl (fun cl dp => clusterAdd cl (relativeTo dp.2 common) dp.1) []

/-- A node declaration line (list.py lines 236-237 and 256-258). -/
def nodeDeclLine (indent : String) (hasDup : Bool) (d : PackageDescriptor) :
    String :=
  indent ++ "\"" ++ (get_node_data hasDup d).1 ++ "\"" ++
    (get_node_data hasDup d).2 ++ ";"

/-- The node declaration block (list.py lines 232-260): plain declarations
when clustering is off or no common path exists, otherwise the enumerated
clusters, wrapping each group with a non-empty relative path in a labelled
subgraph. -/
def nodeLines (nodes : List (PackageDescriptor × FsPath)) (hasDup : Bool)
    (clusterFlag : Bool) (common : Option FsPath) : List String :=
  match common, clusterFlag with
  | some cp, true =>
    (clustersOf nodes cp).enum.flatMap (fun ic =>
      if pathName ic.2.1 ≠ "" then
        ["  subgraph cluster_" ++ toString ic.1 ++ " \x7b",
         "    label = \"" ++ pathText ic.2.1 ++ "\";"] ++
        ic.2.2.map (fun d => nodeDeclLine "    " hasDup d) ++
        ["  \x7d"]
      else ic.2.2.map (fun d => nodeDeclLine "  " hasDup d))
  | _, _ => nodes.map (fun dp => nodeDeclLine "  " hasDup dp.1)

/-- The fixed category-to-color table (list.py lines 263-267). -/
def colorMapping : List (Category × String) :=
  [(Category.build, "blue"), (Category.run, "red"), (Category.test, "tan")]

/-- The color expression of an edge (list.py lines 273-275): the colors of
the categories present, in table order, joined with a colon. -/
def colorsFor (categories : List Category) : String :=
  String.intercalate ":"
    ((colorMapping.filter (fun p => p.1 ∈ categories)).map Prod.snd)

/-- One rendered edge line (list.py lines 279-281). -/
def mkEdgeLine (startName endName colors style : String) : String :=
  "  \"" ++ startName ++ "\" -> \"" ++ endName ++ "\" [color=\"" ++ colors ++
    "\"" ++ style ++ "];"

/-- The edge block (list.py lines 268-281): the solid pass over the direct
edges followed by the dashed pass over the indirect edges, fanning each edge
out to every decorator whose name matches the target name. -/
def edgeLines (decorators : List PackageDecorator) (hasDup : Bool)
    (direct indirect : EdgeMap) : List String :=
  [("", direct), (", style=\"dashed\"", indirect)].flatMap (fun se =>
    se.2.flatMap (fun e =>
      (decoratorsNamed decorators e.1.2).map (fun deco =>
        mkEdgeLine (get_node_data hasDup e.1.1).1
          (get_node_data hasDup deco.descriptor).1 (colorsFor e.2) se.1)))

/-- The full DOT output (list.py lines 149-283). -/
def dotLines (decorators : List PackageDecorator) (clusterFlag : Bool) :
    List String :=
  let hasDup := has_duplicate_names decorators
  let nodes := nodesList decorators
  let direct := directEdges decorators
  let indirect := indirectEdges decorators direct
  let common := commonPath (nodes.map Prod.snd)
  ["digraph graphname \x7b"] ++ nodeLines nodes hasDup clusterFlag common ++
    edgeLines decorators hasDup direct indirect ++ ["\x7d"]

/-- empty_fraction (list.py lines 141-143), over the rationals. -/
def emptyFraction (n empty : Nat) : ℚ :=
  if 1 < n then (empty : ℚ) / ((n : ℚ) * ((n : ℚ) - 1)) else 1

/-- density_percentage (list.py line 145). -/
def densityPercentage (n empty : Nat) : ℚ :=
  200 * (1 - emptyFraction n empty)

/-- The (key, category) additions performed by the direct-edge loop of
list.py lines 169-183, in execution order. -/
def directEvents (decorators : List PackageDecorator) :
    List (EdgeKey × Category) :=
  (decorators.reverse.filter (fun d => d.selected)).flatMap (fun deco =>
    deco.descriptor.dependencies.flatMap (fun cd =>
      (cd.2.filter (fun dep =>
        decide (dep ∈ selectedPkgNamesList decorators))).map
        (fun dep => ((deco.descriptor, dep), cd.1))))

/-- The additions performed for one declared dependency name by the
indirect-edge loop of list.py lines 193-211. -/
def depEvents (decorators : List PackageDecorator) (direct : EdgeMap)
    (k0 : PackageDescriptor) (c : Category) (dep : String) :
    List (EdgeKey × Category) :=
  if dep ∈ selectedPkgNamesList decorators then []
  else if (decoratorsNamed decorators dep).isEmpty then []
  else
    (((decoratorsNamed decorators dep).map
      (fun d => d.recursive_dependencies)).flatten.filter (fun rdep =>
        decide (rdep ∈ selectedPkgNamesList decorators ∧
          (k0, rdep) ∉ edgeKeys direct))).map
      (fun rdep => ((k0, rdep), c))

/-- The (key, category) additions performed by the indirect-edge loop of
list.py lines 185-211, in execution order. -/
def indirectEvents (decorators : List PackageDecorator) (direct : EdgeMap) :
    List (EdgeKey × Category) :=
  (decorators.reverse.filter (fun d => d.selected)).flatMap (fun deco =>
    deco.descriptor.dependencies.flatMap (fun cd =>
      cd.2.flatMap (fun dep =>
        depEvents decorators direct deco.descriptor cd.1 dep)))

/-- Numeric value of a decimal digit character. -/
def digitVal (c : Char) : Nat := c.toNat - Char.toNat '0'

/-- Numeric value of a most-significant-first decimal digit string. -/
def digitsVal (l : List Char) : Nat :=
  l.foldl (fun a c => a * 10 + digitVal c) 0

/-! ## Concrete inputs used to instantiate the theorems -/

/-- Descriptor D of the worked example: no dependencies, selected. -/
def descD : PackageDescriptor := ⟨1, "D", ⟨true, ["ws", "d"]⟩, []⟩

/-- Descriptor C of the worked example: run-depends on D, not selected. -/
def descC : PackageDescriptor :=
  ⟨2, "C", ⟨true, ["ws", "c"]⟩, [(Category.run, ["D"])]⟩

/-- Descriptor B of the worked example: run-depends on C, selected. -/
def descB : PackageDescriptor :=
  ⟨3, "B", ⟨true, ["ws", "b"]⟩, [(Category.run, ["C"])]⟩

/-- Descriptor A of the worked example: build-depends on B, selected. -/
def descA : PackageDescriptor :=
  ⟨4, "A", ⟨true, ["ws", "a"]⟩, [(Category.build, ["B"])]⟩

/-- The worked example node set in topological order: selected A, B, D;
unselected C in the middle of the run chain B to C to D. -/
def exampleDecorators : List PackageDecorator :=
  [⟨descD, true, []⟩, ⟨descC, false, ["D"]⟩, ⟨descB, true, ["C", "D"]⟩,
   ⟨descA, true, ["B", "C", "D"]⟩]

/-- The recursive run closures of the worked example, as the external
get_recursive_dependencies would compute them. -/
def recFExample : PackageDescriptor → List String :=
  fun d => if d.name = "A" then ["B", "D"] else if d.name = "B" then ["D"]
    else []

/-- An everywhere-empty recursive closure function. -/
def recFZero : PackageDescriptor → List String := fun _ => []

/-- Selected duplicate-name descriptor at ws/p1. -/
def descPkg1 : PackageDescriptor := ⟨11, "pkg", ⟨true, ["ws", "p1"]⟩, []⟩

/-- Selected duplicate-name descriptor at ws/p2. -/
def descPkg2 : PackageDescriptor := ⟨12, "pkg", ⟨true, ["ws", "p2"]⟩, []⟩

/-- Unselected descriptor sharing the duplicated name, at other/p3. -/
def descPkg3 : PackageDescriptor := ⟨13, "pkg", ⟨true, ["other", "p3"]⟩, []⟩

/-- Selected descriptor that build-depends on the duplicated name. -/
def descApp : PackageDescriptor :=
  ⟨10, "app", ⟨true, ["ws", "app"]⟩, [(Category.build, ["pkg"])]⟩

/-- A node set with duplicate selected names and an unselected node sharing
the duplicated name. -/
def dupDecorators : List PackageDecorator :=
  [⟨descPkg1, true, []⟩, ⟨descPkg2, true, []⟩, ⟨descPkg3, false, []⟩,
   ⟨descApp, true, []⟩]

/-- Selected descriptor under ws/grp1. -/
def descX : PackageDescriptor := ⟨21, "x", ⟨true, ["ws", "grp1", "x"]⟩, []⟩

/-- Selected descriptor under ws/grp2. -/
def descY : PackageDescriptor := ⟨22, "y", ⟨true, ["ws", "grp2", "y"]⟩, []⟩

/-- A node set whose selected nodes live in two sibling directories. -/
def clusterDecorators : List PackageDecorator :=
  [⟨descX, true, []⟩, ⟨descY, true, []⟩]

/-- A node set with nodes but no selected node. -/
def noneSelectedDecorators : List PackageDecorator :=
  [⟨descD, false, []⟩, ⟨descC, false, ["D"]⟩]

/-! ## Edge map lemmas -/

theorem lookupCats_nil (k : EdgeKey) : lookupCats [] k = [] := rfl

theorem mem_lookupCats_addEdge (m : EdgeMap) (k : EdgeKey) (c : Category)
    (k' : EdgeKey) (c' : Category) :
    c' ∈ lookupCats (addEdge m k c) k' ↔
      c' ∈ lookupCats m k' ∨ (k' = k ∧ c' = c) := by
  induction m with
  | nil =>
    by_cases h : k = k'
    · subst h
      simp [addEdge, lookupCats]
    · have h' : ¬ k' = k := fun hh => h hh.symm
      simp [addEdge, lookupCats, h, h']
  | cons e rest ih =>
    simp only [addEdge]
    by_cases h : e.1 = k
    · rw [if_pos h]
      by_cases h2 : e.1 = k'
      · have hk : k' = k := h2.symm.trans h
        simp only [lookupCats, if_pos h2]
        simp only [hk, true_and]
        by_cases hc : c ∈ e.2
        · rw [if_pos hc]
          constructor
          · exact Or.inl
          · rintro (hm | hm)
            · exact hm
            · exact hm ▸ hc
        · rw [if_neg hc]
          simp [List.mem_append]
      · have hk : ¬ k' = k := fun hh => h2 (h.trans hh.symm)
        simp [lookupCats, h2, hk]
    · rw [if_neg h]
      by_cases h2 : e.1 = k'
      · have hk : ¬ k' = k := fun hh => h (h2.trans hh)
        simp [lookupCats, h2, hk]
      · simp [lookupCats, h2, ih]

theorem edgeKeys_cons (e : EdgeKey × List Category) (m : EdgeMap) :
    edgeKeys (e :: m) = e.1 :: edgeKeys m := rfl

theorem mem_edgeKeys_addEdge (m : EdgeMap) (k : EdgeKey) (c : Category)
    (k' : EdgeKey) :
    k' ∈ edgeKeys (addEdge m k c) ↔ k' ∈ edgeKeys m ∨ k' = k := by
  induction m with
  | nil => simp [addEdge, edgeKeys]
  | cons e rest ih =>
    simp only [addEdge]
    by_cases h : e.1 = k
    · rw [if_pos h]
      simp only [edgeKeys_cons, List.mem_cons]
      rw [h]
      tauto
    · rw [if_neg h]
      simp only [edgeKeys_cons, List.mem_cons]
      rw [ih]
      tauto

theorem applyEvents_nil (m : EdgeMap) : applyEvents m [] = m := rfl

theorem applyEvents_cons (m : EdgeMap) (e : EdgeKey × Category)
    (evs : List (EdgeKey × Category)) :
    applyEvents m (e :: evs) = applyEvents (addEdge m e.1 e.2) evs := rfl

theorem applyEvents_append (m : EdgeMap) (a b : List (EdgeKey × Category)) :
    applyEvents m (a ++ b) = applyEvents (applyEvents m a) b := by
  unfold applyEvents
  rw [List.foldl_append]

theorem mem_lookupCats_applyEvents (evs : List (EdgeKey × Category)) :
    ∀ (m : EdgeMap) (k : EdgeKey) (c : Category),
    c ∈ lookupCats (applyEvents m evs) k ↔
      c ∈ lookupCats m k ∨ (k, c) ∈ evs := by
  induction evs with
  | nil => simp [applyEvents]
  | cons e rest ih =>
    intro m k c
    rw [applyEvents_cons, ih, mem_lookupCats_addEdge]
    simp only [List.mem_cons, Prod.ext_iff]
    tauto

theorem mem_edgeKeys_applyEvents (evs : List (EdgeKey × Category)) :
    ∀ (m : EdgeMap) (k : EdgeKey),
    k ∈ edgeKeys (applyEvents m evs) ↔
      k ∈ edgeKeys m ∨ ∃ c, (k, c) ∈ evs := by
  induction evs with
  | nil => simp [applyEvents]
  | cons e rest ih =>
    intro m k
    rw [applyEvents_cons, ih, mem_edgeKeys_addEdge]
    constructor
    · rintro ((hm | hm) | ⟨c, hc⟩)
      · exact Or.inl hm
      · exact Or.inr ⟨e.2, List.mem_cons.mpr (Or.inl (by rw [hm]))⟩
      · exact Or.inr ⟨c, List.mem_cons_of_mem _ hc⟩
    · rintro (hm | ⟨c, hc⟩)
      · exact Or.inl (Or.inl hm)
      · rcases List.mem_cons.mp hc with hce | hcr
        · exact Or.inl (Or.inr (congrArg Prod.fst hce))
        · exact Or.inr ⟨c, hcr⟩

/-! ## Flattening the edge collection loops into event lists -/

theorem direct_inner0 (sel : List String) (k0 : PackageDescriptor)
    (c : Category) :
    ∀ (deps : List String) (m : EdgeMap),
    deps.foldl (fun m3 dep =>
      if dep ∈ sel then addEdge m3 (k0, dep) c else m3) m
    = applyEvents m ((deps.filter (fun dep => decide (dep ∈ sel))).map
        (fun dep => ((k0, dep), c))) := by
  intro deps
  induction deps with
  | nil => intro m; rfl
  | cons d deps ih =>
    intro m
    by_cases hd : d ∈ sel
    · simp only [List.foldl_cons, if_pos hd, List.filter_cons, hd,
        decide_eq_true_eq, if_true, List.map_cons, applyEvents_cons]
      exact ih _
    · simp only [List.foldl_cons, if_neg hd, List.filter_cons, hd,
        decide_eq_true_eq, if_false]
      exact ih m

theorem direct_inner1 (sel : List String) (k0 : PackageDescriptor) :
    ∀ (depmap : List (Category × List String)) (m : EdgeMap),
    depmap.foldl (fun m2 cd =>
      cd.2.foldl (fun m3 dep =>
        if dep ∈ sel then addEdge m3 (k0, dep) cd.1 else m3) m2) m
    = applyEvents m (depmap.flatMap (fun cd =>
        (cd.2.filter (fun dep => decide (dep ∈ sel))).map
          (fun dep => ((k0, dep), cd.1)))) := by
  intro depmap
  induction depmap with
  | nil => intro m; rfl
  | cons cd depmap ih =>
    intro m
    simp only [List.foldl_cons, List.flatMap_cons, applyEvents_append]
    rw [direct_inner0]
    exact ih _

theorem direct_top (decorators : List PackageDecorator) :
    ∀ (l : List PackageDecorator) (m : EdgeMap),
    l.foldl (fun m deco =>
      if deco.selected then
        deco.descriptor.dependencies.foldl (fun m2 cd =>
          cd.2.foldl (fun m3 dep =>
            if dep ∈ selectedPkgNamesList decorators then
              addEdge m3 (deco.descriptor, dep) cd.1
            else m3) m2) m
      else m) m
    = applyEvents m ((l.filter (fun d => d.selected)).flatMap (fun deco =>
        deco.descriptor.dependencies.flatMap (fun cd =>
          (cd.2.filter (fun dep =>
            decide (dep ∈ selectedPkgNamesList decorators))).map
            (fun dep => ((deco.descriptor, dep), cd.1))))) := by
  intro l
  induction l with
  | nil => intro m; rfl
  | cons deco l ih =>
    intro m
    by_cases hs : deco.selected = true
    · simp only [List.foldl_cons, if_pos hs, List.filter_cons, hs,
        List.flatMap_cons, applyEvents_append, if_true]
      rw [direct_inner1]
      exact ih _
    · simp only [List.foldl_cons, if_neg hs, List.filter_cons, hs,
        if_false]
      exact ih m

theorem directEdges_eq_events (decorators : List PackageDecorator) :
    directEdges decorators = applyEvents [] (directEvents decorators) := by
  unfold directEdges directEvents
  exact direct_top decorators decorators.reverse []

theorem indirect_inner0 (sel : List String) (dirKeys : List EdgeKey)
    (k0 : PackageDescriptor) (c : Category) :
    ∀ (rdeps : List String) (m : EdgeMap),
    rdeps.foldl (fun m4 rdep =>
      if rdep ∈ sel then
        if (k0, rdep) ∈ dirKeys then m4 else addEdge m4 (k0, rdep) c
      else m4) m
    = applyEvents m ((rdeps.filter (fun rdep =>
        decide (rdep ∈ sel ∧ (k0, rdep) ∉ dirKeys))).map
        (fun rdep => ((k0, rdep), c))) := by
  intro rdeps
  induction rdeps with
  | nil => intro m; rfl
  | cons r rdeps ih =>
    intro m
    by_cases h1 : r ∈ sel
    · by_cases h2 : (k0, r) ∈ dirKeys
      · simp only [List.foldl_cons, if_pos h1, if_pos h2, List.filter_cons,
          h1, h2, decide_eq_true_eq, not_true, and_false, if_false]
        exact ih m
      · simp only [List.foldl_cons, if_pos h1, if_neg h2, List.filter_cons,
          h1, h2, decide_eq_true_eq, not_false_iff, and_true, true_and,
          if_true, List.map_cons, applyEvents_cons]
        exact ih _
    · simp only [List.foldl_cons, if_neg h1, List.filter_cons, h1,
        decide_eq_true_eq, false_and, if_false]
      exact ih m

theorem indirect_inner1 (decorators : List PackageDecorator)
    (direct : EdgeMap) (k0 : PackageDescriptor) (c : Category) :
    ∀ (deps : List String) (m : EdgeMap),
    deps.foldl (fun m3 dep =>
      if dep ∈ selectedPkgNamesList decorators then m3
      else if (decoratorsNamed decorators dep).isEmpty then m3
      else
        ((decoratorsNamed decorators dep).map
          (fun d => d.recursive_dependencies)).flatten.foldl (fun m4 rdep =>
            if rdep ∈ selectedPkgNamesList decorators then
              if (k0, rdep) ∈ edgeKeys direct then m4
              else addEdge m4 (k0, rdep) c
            else m4) m3) m
    = applyEvents m (deps.flatMap (fun dep =>
        depEvents decorators direct k0 c dep)) := by
  intro deps
  induction deps with
  | nil => intro m; rfl
  | cons d deps ih =>
    intro m
    simp only [List.foldl_cons, List.flatMap_cons, applyEvents_append]
    by_cases h1 : d ∈ selectedPkgNamesList decorators
    · rw [if_pos h1, show depEvents decorators direct k0 c d = [] from
        by rw [depEvents, if_pos h1], applyEvents_nil]
      exact ih m
    · by_cases h2 : (decoratorsNamed decorators d).isEmpty = true
      · rw [if_neg h1, if_pos h2, show depEvents decorators direct k0 c d = []
          from by rw [depEvents, if_neg h1, if_pos h2], applyEvents_nil]
        exact ih m
      · rw [if_neg h1, if_neg h2, show depEvents decorators direct k0 c d =
          (((decoratorsNamed decorators d).map
            (fun d2 => d2.recursive_dependencies)).flatten.filter (fun rdep =>
              decide (rdep ∈ selectedPkgNamesList decorators ∧
                (k0, rdep) ∉ edgeKeys direct))).map
            (fun rdep => ((k0, rdep), c))
          from by rw [depEvents, if_neg h1, if_neg h2], indirect_inner0]
        exact ih _

theorem indirect_top (decorators : List PackageDecorator) (direct : EdgeMap) :
    ∀ (l : List PackageDecorator) (m : EdgeMap),
    l.foldl (fun m deco =>
      if deco.selected then
        deco.descriptor.dependencies.foldl (fun m2 cd =>
          cd.2.foldl (fun m3 dep =>
            if dep ∈ selectedPkgNamesList decorators then m3
            else if (decoratorsNamed decorators dep).isEmpty then m3
            else
              ((decoratorsNamed decorators dep).map
                (fun d => d.recursive_dependencies)).flatten.foldl
                  (fun m4 rdep =>
                    if rdep ∈ selectedPkgNamesList decorators then
                      if (deco.descriptor, rdep) ∈ edgeKeys direct then m4
                      else addEdge m4 (deco.descriptor, rdep) cd.1
                    else m4) m3) m2) m
      else m) m
    = applyEvents m ((l.filter (fun d => d.selected)).flatMap (fun deco =>
        deco.descriptor.dependencies.flatMap (fun cd =>
          cd.2.flatMap (fun dep =>
            depEvents decorators direct deco.descriptor cd.1 dep)))) := by
  intro l
  induction l with
  | nil => intro m; rfl
  | cons deco l ih =>
    intro m
    by_cases hs : deco.selected = true
    · simp only [List.foldl_cons, if_pos hs, List.filter_cons, hs,
        List.flatMap_cons, applyEvents_append, if_true]
      have hmid :
          ∀ (depmap : List (Category × List String)) (m2 : EdgeMap),
          depmap.foldl (fun m2 cd =>
            cd.2.foldl (fun m3 dep =>
              if dep ∈ selectedPkgNamesList decorators then m3
              else if (decoratorsNamed decorators dep).isEmpty then m3
              else
                ((decoratorsNamed decorators dep).map
                  (fun d => d.recursive_dependencies)).flatten.foldl
                    (fun m4 rdep =>
                      if rdep ∈ selectedPkgNamesList decorators then
                        if (deco.descriptor, rdep) ∈ edgeKeys direct then m4
                        else addEdge m4 (deco.descriptor, rdep) cd.1
                      else m4) m3) m2) m2
          = applyEvents m2 (depmap.flatMap (fun cd =>
              cd.2.flatMap (fun dep =>
                depEvents decorators direct deco.descriptor cd.1 dep))) := by
        intro depmap
        induction depmap with
        | nil => intro m2; rfl
        | cons cd depmap ihm =>
          intro m2
          simp only [List.foldl_cons, List.flatMap_cons, applyEvents_append]
          rw [indirect_inner1]
          exact ihm _
      rw [hmid]
      exact ih _
    · simp only [List.foldl_cons, if_neg hs, List.filter_cons, hs, if_false]
      exact ih m

theorem indirectEdges_eq_events (decorators : List PackageDecorator)
    (direct : EdgeMap) :
    indirectEdges decorators direct =
      applyEvents [] (indirectEvents decorators direct) := by
  unfold indirectEdges indirectEvents
  exact indirect_top decorators direct decorators.reverse []

/-! ## Membership characterizations of the collected edges -/

theorem mem_depEvents (decorators : List PackageDecorator) (direct : EdgeMap)
    (k0 : PackageDescriptor) (c0 : Category) (dep : String)
    (d : PackageDescriptor) (t : String) (c : Category) :
    ((d, t), c) ∈ depEvents decorators direct k0 c0 dep ↔
      d = k0 ∧ c = c0 ∧ dep ∉ selectedPkgNamesList decorators ∧
      (∃ dk, dk ∈ decorators ∧ dk.descriptor.name = dep ∧
        t ∈ dk.recursive_dependencies) ∧
      t ∈ selectedPkgNamesList decorators ∧ (k0, t) ∉ edgeKeys direct := by
  rw [depEvents]
  by_cases h1 : dep ∈ selectedPkgNamesList decorators
  · simp [h1]
  · rw [if_neg h1]
    by_cases h2 : (decoratorsNamed decorators dep).isEmpty = true
    · rw [if_pos h2]
      have hno : ¬ ∃ dk, dk ∈ decorators ∧ dk.descriptor.name = dep ∧
          t ∈ dk.recursive_dependencies := by
        rintro ⟨dk, hdk, hname, _⟩
        have : dk ∈ decoratorsNamed decorators dep := by
          simp only [decoratorsNamed, List.mem_filter]
          exact ⟨hdk, by simp [hname]⟩
        rw [List.isEmpty_iff] at h2
        rw [h2] at this
        exact List.not_mem_nil dk this
      simp [hno]
    · rw [if_neg h2]
      simp only [List.mem_map, List.mem_filter, List.mem_flatten,
        decide_eq_true_eq, Prod.mk.injEq]
      constructor
      · rintro ⟨rdep, ⟨⟨l, hl, hrl⟩, hsel, hdir⟩, ⟨⟨hd, ht⟩, hc⟩⟩
        rcases hl with ⟨dk, hdk, hldk⟩
        rw [decoratorsNamed, List.mem_filter] at hdk
        subst ht
        refine ⟨hd.symm, hc.symm, h1, ⟨dk, hdk.1, ?_, hldk ▸ hrl⟩, hsel, hdir⟩
        have := hdk.2
        simpa using this
      · rintro ⟨hd, hc, _, ⟨dk, hdk, hname, ht⟩, hsel, hdir⟩
        have hmemn : dk ∈ decoratorsNamed decorators dep :=
          List.mem_filter.mpr ⟨hdk, by simp [hname]⟩
        exact ⟨t, ⟨⟨dk.recursive_dependencies, ⟨dk, hmemn, rfl⟩, ht⟩, hsel,
          hdir⟩, ⟨⟨hd.symm, rfl⟩, hc.symm⟩⟩

theorem mem_indirectEvents (decorators : List PackageDecorator)
    (direct : EdgeMap) (d : PackageDescriptor) (t : String) (c : Category) :
    ((d, t), c) ∈ indirectEvents decorators direct ↔
      ∃ deco, deco ∈ decorators ∧ deco.selected = true ∧
        deco.descriptor = d ∧
        ∃ deps, (c, deps) ∈ d.dependencies ∧ ∃ dep, dep ∈ deps ∧
          dep ∉ selectedPkgNamesList decorators ∧
          (∃ dk, dk ∈ decorators ∧ dk.descriptor.name = dep ∧
            t ∈ dk.recursive_dependencies) ∧
          t ∈ selectedPkgNamesList decorators ∧
          (d, t) ∉ edgeKeys direct := by
  rw [indirectEvents]
  simp only [List.mem_flatMap, List.mem_filter, List.mem_reverse]
  constructor
  · rintro ⟨deco, ⟨hmem, hsel⟩, cd, hcd, dep, hdep, hev⟩
    rw [mem_depEvents] at hev
    rcases hev with ⟨hd, hc, hnot, hk, ht, hdir⟩
    subst hd
    exact ⟨deco, hmem, hsel, rfl, cd.2, by rw [hc]; exact hcd,
      dep, hdep, hnot, hk, ht, hdir⟩
  · rintro ⟨deco, hmem, hsel, hd, deps, hdeps, dep, hdep, hnot, hk, ht, hdir⟩
    refine ⟨deco, ⟨hmem, hsel⟩, (c, deps), ?_, dep, hdep, ?_⟩
    · rw [hd]; exact hdeps
    · rw [mem_depEvents]
      exact ⟨hd.symm, rfl, hnot, hk, ht, by rw [← hd] at hdir; exact hdir⟩

theorem mem_directEvents (decorators : List PackageDecorator)
    (d : PackageDescriptor) (t : String) (c : Category) :
    ((d, t), c) ∈ directEvents decorators ↔
      ∃ deco, deco ∈ decorators ∧ deco.selected = true ∧
        deco.descriptor = d ∧
        ∃ deps, (c, deps) ∈ d.dependencies ∧ t ∈ deps ∧
          t ∈ selectedPkgNamesList decorators := by
  rw [directEvents]
  simp only [List.mem_flatMap, List.mem_filter, List.mem_reverse,
    List.mem_map, decide_eq_true_eq, Prod.mk.injEq]
  constructor
  · rintro ⟨deco, ⟨hmem, hsel⟩, cd, hcd, dep, ⟨hdep, hdsel⟩, ⟨⟨hd, ht⟩, hc⟩⟩
    subst ht
    exact ⟨deco, hmem, hsel, hd, cd.2, by rw [← hc, ← hd]; exact hcd,
      hdep, hdsel⟩
  · rintro ⟨deco, hmem, hsel, hd, deps, hdeps, hdep, hdsel⟩
    exact ⟨deco, ⟨hmem, hsel⟩, (c, deps), by rw [hd]; exact hdeps,
      t, ⟨hdep, hdsel⟩, ⟨⟨hd, rfl⟩, rfl⟩⟩

/-! ## String and list helpers for the matrix -/

theorem data_append (a b : String) : (a ++ b).data = a.data ++ b.data := by
  cases a
  cases b
  rfl

theorem mk_push (l : List Char) (c : Char) :
    (String.mk l).push c = String.mk (l ++ [c]) := rfl

theorem append_push (a b : String) (c : Char) :
    (a ++ b).push c = a ++ b.push c := by
  cases a with
  | mk la =>
    cases b with
    | mk lb =>
      show String.mk ((la ++ lb) ++ [c]) = String.mk (la ++ (lb ++ [c]))
      rw [List.append_assoc]

theorem data_pushn (s : String) (c : Char) :
    ∀ n, (s.pushn c n).data = s.data ++ List.replicate n c := by
  intro n
  induction n with
  | zero => simp [String.pushn, Nat.repeat]
  | succ n ih =>
    show ((s.pushn c n).push c).data = _
    rw [String.push, ih]
    simp [List.replicate_succ']

theorem ljust_data (s : String) (w : Nat) :
    (ljust s w).data = s.data ++ List.replicate (w - s.length) ' ' := by
  rw [ljust, data_pushn]

theorem ljust_length (s : String) (w : Nat) (h : s.length ≤ w) :
    (ljust s w).length = w := by
  show (ljust s w).data.length = w
  rw [ljust_data, List.length_append, List.length_replicate]
  show s.length + (w - s.length) = w
  omega

theorem getD_set_self (l : List String) (k : Nat) (v : String)
    (h : k < l.length) : (l.set k v).getD k "" = v := by
  simp [List.getD, List.getElem?_set_self, h]

theorem getD_set_ne (l : List String) (k : Nat) (v : String) (j : Nat)
    (h : j ≠ k) : (l.set k v).getD j "" = l.getD j "" := by
  simp [List.getD, List.getElem?_set_ne (Ne.symm h)]

theorem getD_map_lt {α β : Type} [Inhabited α] [Inhabited β]
    (l : List α) (f : α → β) (j : Nat) (h : j < l.length) :
    (l.map f).getD j default = f (l.getD j default) := by
  simp [List.getD, List.getElem?_map, List.getElem?_eq_getElem h]

/-! ## Matrix fold characterization -/

theorem matrixStep_eq (shown : List PackageDecorator)
    (recF : PackageDescriptor → List String) (i : Nat)
    (st : List String × Nat) (j : Nat) :
    matrixStep shown recF i st j =
      (st.1.set j ((st.1.getD j "").push (cellChar shown recF i j)),
       st.2 + if cellChar shown recF i j = ' ' then 1 else 0) := by
  rw [matrixStep, cellChar]
  by_cases h1 : j = i
  · rw [if_pos h1, if_pos h1,
      show (if ('+' : Char) = ' ' then 1 else 0) = 0 from by decide,
      Nat.add_zero]
  · rw [if_neg h1, if_neg h1]
    by_cases h2 : (shown.getD j default).descriptor.name ∈
        depsUnion (shown.getD i default).descriptor
    · rw [if_pos h2, if_pos h2,
        show (if ('*' : Char) = ' ' then 1 else 0) = 0 from by decide,
        Nat.add_zero]
    · rw [if_neg h2, if_neg h2]
      by_cases h3 : (shown.getD j default).descriptor.name ∈
          recF (shown.getD i default).descriptor
      · rw [if_pos h3, if_pos h3,
          show (if ('.' : Char) = ' ' then 1 else 0) = 0 from by decide,
          Nat.add_zero]
      · rw [if_neg h3, if_neg h3,
          show (if (' ' : Char) = ' ' then 1 else 0) = 1 from by decide]

theorem append_mk_nil (s : String) : s ++ String.mk [] = s := by
  cases s with
  | mk l =>
    show String.mk (l ++ []) = String.mk l
    rw [List.append_nil]

theorem matrix_inner_fold (shown : List PackageDecorator)
    (recF : PackageDescriptor → List String) (i : Nat) :
    ∀ (k : Nat) (st : List String × Nat), k ≤ st.1.length →
    let r := (List.range k).foldl (fun st2 j => matrixStep shown recF i st2 j)
      st
    r.1.length = st.1.length ∧
    (∀ j, r.1.getD j "" =
      if j < k then (st.1.getD j "").push (cellChar shown recF i j)
      else st.1.getD j "") ∧
    r.2 = st.2 + ((List.range k).filter
      (fun j => cellChar shown recF i j = ' ')).length := by
  intro k
  induction k with
  | zero =>
    intro st _
    refine ⟨rfl, fun j => by simp, by simp⟩
  | succ k ih =>
    intro st hk
    obtain ⟨ihlen, ihrow, ihcnt⟩ := ih st (Nat.le_of_succ_le hk)
    have hr : (List.range (k + 1)) = List.range k ++ [k] := by
      simp [List.range_succ]
    intro r
    have hr2 : r = matrixStep shown recF i
        ((List.range k).foldl (fun st2 j => matrixStep shown recF i st2 j)
          st) k := by
      show (List.range (k + 1)).foldl _ st = _
      rw [hr, List.foldl_append]
      rfl
    rw [hr2, matrixStep_eq]
    have hklen : k < st.1.length := hk
    refine ⟨?_, ?_, ?_⟩
    · simp [List.length_set, ihlen]
    · intro j
      by_cases hj : j = k
      · subst hj
        rw [getD_set_self _ _ _ (by rw [ihlen]; exact hklen)]
        rw [ihrow j, if_neg (Nat.lt_irrefl j), if_pos (Nat.lt_succ_self j)]
      · rw [getD_set_ne _ _ _ _ hj, ihrow j]
        by_cases hjk : j < k
        · rw [if_pos hjk, if_pos (Nat.lt_succ_of_lt hjk)]
        · rw [if_neg hjk, if_neg (by omega)]
    · rw [ihcnt, hr, List.filter_append, List.length_append]
      by_cases hcell : cellChar shown recF i k = ' '
      · simp [hcell, Nat.add_assoc]
      · simp [hcell]

theorem matrix_outer_fold (shown : List PackageDecorator)
    (recF : PackageDescriptor → List String) :
    ∀ (k : Nat) (st : List String × Nat), st.1.length = shown.length →
    let r := (List.range k).foldl (fun st0 i =>
      (List.range shown.length).foldl
        (fun st2 j => matrixStep shown recF i st2 j) st0) st
    r.1.length = shown.length ∧
    (∀ j, j < shown.length → r.1.getD j "" =
      (st.1.getD j "") ++ String.mk ((List.range k).map
        (fun i => cellChar shown recF i j))) ∧
    r.2 = st.2 + ((List.range k).map (fun i =>
      ((List.range shown.length).filter
        (fun j => cellChar shown recF i j = ' ')).length)).sum := by
  intro k
  induction k with
  | zero =>
    intro st hlen
    refine ⟨hlen, fun j _ => ?_, by simp⟩
    show st.1.getD j "" = st.1.getD j "" ++ String.mk []
    rw [append_mk_nil]
  | succ k ih =>
    intro st hlen
    obtain ⟨ihlen, ihrow, ihcnt⟩ := ih st hlen
    have hr : (List.range (k + 1)) = List.range k ++ [k] := by
      simp [List.range_succ]
    intro r
    have hr2 : r = (List.range shown.length).foldl
        (fun st2 j => matrixStep shown recF k st2 j)
        ((List.range k).foldl (fun st0 i =>
          (List.range shown.length).foldl
            (fun st2 j => matrixStep shown recF i st2 j) st0) st) := by
      show (List.range (k + 1)).foldl _ st = _
      rw [hr, List.foldl_append]
      rfl
    obtain ⟨inlen, inrow, incnt⟩ := matrix_inner_fold shown recF k
      shown.length
      ((List.range k).foldl (fun st0 i =>
        (List.range shown.length).foldl
          (fun st2 j => matrixStep shown recF i st2 j) st0) st)
      (by rw [ihlen])
    rw [hr2]
    refine ⟨by rw [inlen, ihlen], ?_, ?_⟩
    · intro j hj
      have h1 := inrow j
      rw [if_pos hj] at h1
      rw [h1, ihrow j hj, append_push, mk_push, hr, List.map_append]
      rfl
    · rw [incnt, ihcnt, hr, List.map_append, List.sum_append]
      simp [Nat.add_assoc]


/-- Claim C1: the indirect-edge collector emits an edge (selected source
node, selected target name) tagged with the first-hop category exactly when
the source's descriptor declares, under that category, a dependency name
that is not any selected node's name but is the name of at least one node in
the full set, and some node instance bearing that name has the target
selected name in its precomputed recursive run-dependency closure; a
candidate is skipped when a direct edge already exists for the same
(source, target-name) key, and a dependency name matching no known node is
silently omitted. -/
theorem c1_indirect_edge_characterization :
    ∀ (decorators : List PackageDecorator) (d : PackageDescriptor)
      (t : String) (c : Category),
    c ∈ lookupCats (indirectEdges decorators (directEdges decorators))
        (d, t) ↔
      ∃ deco, deco ∈ decorators ∧ deco.selected = true ∧
        deco.descriptor = d ∧
        ∃ deps, (c, deps) ∈ d.dependencies ∧ ∃ dep, dep ∈ deps ∧
          dep ∉ selectedPkgNamesList decorators ∧
          (∃ dk, dk ∈ decorators ∧ dk.descriptor.name = dep) ∧
          (∃ dk, dk ∈ decorators ∧ dk.descriptor.name = dep ∧
            t ∈ dk.recursive_dependencies) ∧
          t ∈ selectedPkgNamesList decorators ∧
          (d, t) ∉ edgeKeys (directEdges decorators) := by
  intro decorators d t c
  rw [indirectEdges_eq_events, mem_lookupCats_applyEvents]
  simp only [lookupCats_nil, List.not_mem_nil, false_or]
  rw [mem_indirectEvents]
  constructor
  · rintro ⟨deco, h1, h2, h3, deps, h4, dep, h5, h6, hk, h7, h8⟩
    obtain ⟨dk, hdk1, hdk2, hdk3⟩ := hk
    exact ⟨deco, h1, h2, h3, deps, h4, dep, h5, h6, ⟨dk, hdk1, hdk2⟩,
      ⟨dk, hdk1, hdk2, hdk3⟩, h7, h8⟩
  · rintro ⟨deco, h1, h2, h3, deps, h4, dep, h5, h6, _, hk, h7, h8⟩
    exact ⟨deco, h1, h2, h3, deps, h4, dep, h5, h6, hk, h7, h8⟩

/-! ## Claim C3 -/

/-- Claim C3: no (source, resolved-target) pair is ever reported both as a
direct and as an indirect edge.  In dot mode each key of the indirect-edge
map is absent from the direct-edge map; in the ASCII matrix a cell marked
with the transitive-dependency dot never satisfies the direct-dependency
star condition. -/
theorem c3_direct_indirect_disjoint :
    (∀ (decorators : List PackageDecorator) (k : EdgeKey),
      k ∈ edgeKeys (indirectEdges decorators (directEdges decorators)) →
        k ∉ edgeKeys (directEdges decorators)) ∧
    (∀ (shown : List PackageDecorator)
      (recF : PackageDescriptor → List String) (i j : Nat),
      cellChar shown recF i j = '.' →
        (shown.getD j default).descriptor.name ∉
          depsUnion (shown.getD i default).descriptor) := by
  constructor
  · intro decorators k hk
    rw [indirectEdges_eq_events, mem_edgeKeys_applyEvents] at hk
    rcases hk with h | ⟨c, hc⟩
    · simp [edgeKeys] at h
    · rcases k with ⟨d, t⟩
      rw [mem_indirectEvents] at hc
      rcases hc with ⟨_, _, _, _, _, _, _, _, _, _, _, hdir⟩
      exact hdir
  · intro shown recF i j hc
    rw [cellChar] at hc
    by_cases hji : j = i
    · rw [if_pos hji] at hc
      exact absurd hc (by decide)
    · rw [if_neg hji] at hc
      by_cases hstar : (shown.getD j default).descriptor.name ∈
          depsUnion (shown.getD i default).descriptor
      · rw [if_pos hstar] at hc
        exact absurd hc (by decide)
      · exact hstar

/-- Witness for C3: on the worked example the indirect edge key (B, D) is
present in the indirect map and absent from the direct map, and the matrix
cell of column B, row D is a transitive dot for a pair with no direct
dependency. -/
theorem c3_direct_indirect_disjoint_witness :
    ((descB, "D") ∈ edgeKeys
        (indirectEdges exampleDecorators (directEdges exampleDecorators)) ∧
      (descB, "D") ∉ edgeKeys (directEdges exampleDecorators)) ∧
    (cellChar (shownDecorators exampleDecorators) recFExample 1 0 = '.' ∧
      ((shownDecorators exampleDecorators).getD 0
          default).descriptor.name ∉
        depsUnion ((shownDecorators exampleDecorators).getD 1
          default).descriptor) :=
  ⟨⟨by decide, c3_direct_indirect_disjoint.1 exampleDecorators (descB, "D")
      (by decide)⟩,
   ⟨by decide, c3_direct_indirect_disjoint.2 (shownDecorators
      exampleDecorators) recFExample 1 0 (by decide)⟩⟩

/-! ## The rendered matrix -/

theorem str_length_append (a b : String) :
    (a ++ b).length = a.length + b.length := by
  show (a ++ b).data.length = a.data.length + b.data.length
  rw [data_append, List.length_append]

theorem le_foldr_max (l : List Nat) : ∀ x ∈ l, x ≤ l.foldr max 0 := by
  induction l with
  | nil => intro x hx; cases hx
  | cons a l ih =>
    intro x hx
    rcases List.mem_cons.mp hx with h | h
    · subst h
      exact le_max_left _ _
    · exact le_trans (ih x h) (le_max_right _ _)

theorem getD_eq_getElem_dec (l : List PackageDecorator) (i : Nat)
    (h : i < l.length) : l.getD i default = l[i] := by
  simp [List.getD, List.getElem?_eq_getElem h]

theorem name_le_maxNameLength (shown : List PackageDecorator) (j : Nat)
    (hj : j < shown.length) :
    (shown.getD j default).descriptor.name.length ≤ maxNameLength shown := by
  apply le_foldr_max
  refine List.mem_map.mpr ⟨shown.getD j default, ?_, rfl⟩
  rw [getD_eq_getElem_dec _ _ hj]
  exact List.getElem_mem hj

theorem getD_append_right_char (l1 l2 : List Char) (n : Nat)
    (h : l1.length ≤ n) :
    (l1 ++ l2).getD n 'x' = l2.getD (n - l1.length) 'x' := by
  simp [List.getD, List.getElem?_append_right h]

theorem matrixCompute_length (shown : List PackageDecorator)
    (recF : PackageDescriptor → List String) :
    (matrixCompute shown recF).1.length = shown.length := by
  obtain ⟨h, _, _⟩ := matrix_outer_fold shown recF shown.length
    (shown.map (fun m => ljust m.descriptor.name (maxNameLength shown + 2)), 0)
    (by simp)
  exact h

theorem matrixCompute_row (shown : List PackageDecorator)
    (recF : PackageDescriptor → List String) (j : Nat)
    (hj : j < shown.length) :
    (matrixCompute shown recF).1.getD j "" =
      ljust (shown.getD j default).descriptor.name (maxNameLength shown + 2)
        ++ String.mk ((List.range shown.length).map
          (fun i => cellChar shown recF i j)) := by
  obtain ⟨_, hrow, _⟩ := matrix_outer_fold shown recF shown.length
    (shown.map (fun m => ljust m.descriptor.name (maxNameLength shown + 2)), 0)
    (by simp)
  have h1 := hrow j hj
  have h2 : (shown.map (fun m =>
      ljust m.descriptor.name (maxNameLength shown + 2))).getD j "" =
      ljust (shown.getD j default).descriptor.name
        (maxNameLength shown + 2) := by
    simp only [List.getD, List.get?_eq_getElem?, List.getElem?_map,
      List.getElem?_eq_getElem hj]
    rfl
  rw [h2] at h1
  exact h1

theorem matrixCompute_count (shown : List PackageDecorator)
    (recF : PackageDescriptor → List String) :
    (matrixCompute shown recF).2 =
      ((List.range shown.length).map (fun i =>
        ((List.range shown.length).filter
          (fun j => cellChar shown recF i j = ' ')).length)).sum := by
  obtain ⟨_, _, h⟩ := matrix_outer_fold shown recF shown.length
    (shown.map (fun m => ljust m.descriptor.name (maxNameLength shown + 2)), 0)
    (by simp)
  simpa using h

theorem matrixCompute_row_length (shown : List PackageDecorator)
    (recF : PackageDescriptor → List String) (j : Nat)
    (hj : j < shown.length) :
    ((matrixCompute shown recF).1.getD j "").length =
      (maxNameLength shown + 2) + shown.length := by
  rw [matrixCompute_row shown recF j hj, str_length_append]
  rw [ljust_length _ _ (le_trans (name_le_maxNameLength shown j hj)
    (Nat.le_add_right _ 2))]
  show _ + (List.length _) = _
  rw [List.length_map, List.length_range]

theorem matrixCompute_cell (shown : List PackageDecorator)
    (recF : PackageDescriptor → List String) (i j : Nat)
    (hi : i < shown.length) (hj : j < shown.length) :
    ((matrixCompute shown recF).1.getD j "").data.getD
      ((maxNameLength shown + 2) + i) 'x' = cellChar shown recF i j := by
  rw [matrixCompute_row shown recF j hj, data_append]
  have hdl : (ljust (shown.getD j default).descriptor.name
      (maxNameLength shown + 2)).data.length = maxNameLength shown + 2 :=
    ljust_length _ _ (le_trans (name_le_maxNameLength shown j hj)
      (Nat.le_add_right _ 2))
  rw [getD_append_right_char _ _ _ (by rw [hdl]; exact Nat.le_add_right _ i)]
  rw [hdl, Nat.add_sub_cancel_left]
  show ((List.range shown.length).map
    (fun i => cellChar shown recF i j)).getD i 'x' = _
  simp [List.getD, List.getElem?_map, List.getElem?_range, hi]

/-! ## Density bounds -/

theorem matrix_empty_le (shown : List PackageDecorator)
    (recF : PackageDescriptor → List String) :
    (matrixCompute shown recF).2 ≤ shown.length * (shown.length - 1) := by
  rw [matrixCompute_count]
  have hbound : ∀ x ∈ (List.range shown.length).map (fun i =>
      ((List.range shown.length).filter
        (fun j => cellChar shown recF i j = ' ')).length),
      x ≤ shown.length - 1 := by
    intro x hx
    rcases List.mem_map.mp hx with ⟨i, hi, hix⟩
    rw [List.mem_range] at hi
    have hplus : cellChar shown recF i i = '+' := by
      rw [cellChar, if_pos rfl]
    have hlt : ((List.range shown.length).filter
        (fun j => cellChar shown recF i j = ' ')).length <
        (List.range shown.length).length := by
      refine List.length_filter_lt_length_iff_exists.mpr
        ⟨i, List.mem_range.mpr hi, ?_⟩
      rw [hplus]
      decide
    rw [List.length_range] at hlt
    omega
  have := List.sum_le_card_nsmul _ _ hbound
  simpa [List.length_map, List.length_range, Nat.mul_comm] using this

theorem density_zero_of_le_one (n e : Nat) (h : n ≤ 1) :
    densityPercentage n e = 0 := by
  rw [densityPercentage, emptyFraction, if_neg (by omega)]
  ring

theorem density_bounds (n e : Nat) (h : e ≤ n * (n - 1)) :
    0 ≤ densityPercentage n e ∧ densityPercentage n e ≤ 200 := by
  by_cases hn : 1 < n
  · have h2 : (2 : ℚ) ≤ (n : ℚ) := by exact_mod_cast hn
    have hdpos : (0 : ℚ) < (n : ℚ) * ((n : ℚ) - 1) := by nlinarith
    have hcast : (e : ℚ) ≤ (n : ℚ) * ((n : ℚ) - 1) := by
      have h1n : 1 ≤ n := by omega
      have : ((n * (n - 1) : ℕ) : ℚ) = (n : ℚ) * ((n : ℚ) - 1) := by
        push_cast [Nat.cast_sub h1n]
        ring
      rw [← this]
      exact_mod_cast h
    have hf0 : 0 ≤ emptyFraction n e := by
      rw [emptyFraction, if_pos hn]
      positivity
    have hf1 : emptyFraction n e ≤ 1 := by
      rw [emptyFraction, if_pos hn]
      rw [div_le_one hdpos]
      exact hcast
    rw [densityPercentage]
    constructor <;> nlinarith
  · rw [density_zero_of_le_one n e (by omega)]
    norm_num

/-! ## Claim C8 -/

/-- Claim C8: for every node set the rendered ASCII matrix is square: there
is one row per selected node, each row carries exactly one symbol cell per
selected node after its padded name of fixed width, and the diagonal cell of
every row is the plus sign. -/
theorem c8_matrix_square_diagonal :
    ∀ (shown : List PackageDecorator)
      (recF : PackageDescriptor → List String),
    (matrixCompute shown recF).1.length = shown.length ∧
    ∀ j, j < shown.length →
      ((matrixCompute shown recF).1.getD j "").length =
        (maxNameLength shown + 2) + shown.length ∧
      ((matrixCompute shown recF).1.getD j "").data.getD
        ((maxNameLength shown + 2) + j) 'x' = '+' := by
  intro shown recF
  refine ⟨matrixCompute_length shown recF, fun j hj => ⟨?_, ?_⟩⟩
  · exact matrixCompute_row_length shown recF j hj
  · rw [matrixCompute_cell shown recF j j hj hj, cellChar, if_pos rfl]

/-- Witness for C8 at the worked example: three rows of width 3 + 3, with a
plus on each diagonal position. -/
theorem c8_matrix_square_diagonal_witness :
    (matrixCompute (shownDecorators exampleDecorators) recFExample).1.length
      = (shownDecorators exampleDecorators).length ∧
    (0 < (shownDecorators exampleDecorators).length ∧
      ((matrixCompute (shownDecorators exampleDecorators)
          recFExample).1.getD 0 "").length =
        (maxNameLength (shownDecorators exampleDecorators) + 2) +
          (shownDecorators exampleDecorators).length ∧
      ((matrixCompute (shownDecorators exampleDecorators)
          recFExample).1.getD 0 "").data.getD
        (maxNameLength (shownDecorators exampleDecorators) + 2 + 0) 'x'
        = '+') :=
  ⟨(c8_matrix_square_diagonal (shownDecorators exampleDecorators)
      recFExample).1,
   by decide,
   ((c8_matrix_square_diagonal (shownDecorators exampleDecorators)
      recFExample).2 0 (by decide)).1,
   ((c8_matrix_square_diagonal (shownDecorators exampleDecorators)
      recFExample).2 0 (by decide)).2⟩

/-! ## Claim C2 -/

/-- Counterexample to claim C2 as stated: in the worked example matrix, the
cell at row 1 (node B) and column 2 (node A) is a star, although row index 1
differs from column index 2 and node 1 (B, the row node) has neither a
declared nor a recursive dependency on node 2 (A, the column node) — the
claim as stated predicts a space there. -/
theorem c2_matrix_cell_counterexample :
    ((matrixCompute (shownDecorators exampleDecorators)
        recFExample).1.getD 1 "").data.getD 5 'x' = '*' ∧
    (1 : Nat) ≠ 2 ∧
    ((shownDecorators exampleDecorators).getD 2
        default).descriptor.name ∉
      depsUnion ((shownDecorators exampleDecorators).getD 1
        default).descriptor ∧
    ((shownDecorators exampleDecorators).getD 2
        default).descriptor.name ∉
      recFExample ((shownDecorators exampleDecorators).getD 1
        default).descriptor := by
  refine ⟨?_, by decide, by decide, by decide⟩
  decide

/-- Claim C2 (amended): the cell of the ASCII matrix at row j, column i is a
plus when i equals j; otherwise a star when the column node i declares a
direct dependency on the row node j; otherwise a dot when the column node i
has the row node j's name in its recursive closure; otherwise a space, and
the empty-cell counter totals exactly the space cells over all (i, j)
pairs. -/
theorem c2_matrix_cell_rule :
    ∀ (shown : List PackageDecorator)
      (recF : PackageDescriptor → List String) (i j : Nat),
      i < shown.length → j < shown.length →
    (((matrixCompute shown recF).1.getD j "").data.getD
        ((maxNameLength shown + 2) + i) 'x' =
      (if j = i then '+'
       else if (shown.getD j default).descriptor.name ∈
          depsUnion (shown.getD i default).descriptor then '*'
       else if (shown.getD j default).descriptor.name ∈
          recF (shown.getD i default).descriptor then '.'
       else ' ')) ∧
    (matrixCompute shown recF).2 =
      ((List.range shown.length).map (fun i2 =>
        ((List.range shown.length).filter
          (fun j2 => cellChar shown recF i2 j2 = ' ')).length)).sum := by
  intro shown recF i j hi hj
  exact ⟨matrixCompute_cell shown recF i j hi hj,
    matrixCompute_count shown recF⟩

/-- Witness for the amended C2 at the worked example: row 1 (B), column 2
(A) carries a star because column node A declares a dependency on row node
B, and the empty-cell counter is 3. -/
theorem c2_matrix_cell_rule_witness :
    (((matrixCompute (shownDecorators exampleDecorators)
        recFExample).1.getD 1 "").data.getD
      (maxNameLength (shownDecorators exampleDecorators) + 2 + 2) 'x' =
      (if (1 : Nat) = 2 then '+'
       else if ((shownDecorators exampleDecorators).getD 1
          default).descriptor.name ∈
          depsUnion ((shownDecorators exampleDecorators).getD 2
            default).descriptor then '*'
       else if ((shownDecorators exampleDecorators).getD 1
          default).descriptor.name ∈
          recFExample ((shownDecorators exampleDecorators).getD 2
            default).descriptor then '.'
       else ' ')) ∧
    (matrixCompute (shownDecorators exampleDecorators) recFExample).2 = 3 :=
  ⟨((c2_matrix_cell_rule (shownDecorators exampleDecorators) recFExample 2 1
      (by decide) (by decide)).1),
   by decide⟩

/-! ## Claim C5 -/

/-- Claim C5: the reported density equals 200 times one minus the empty
fraction, where the fraction is the empty cell count over n times (n - 1)
for more than one row and one otherwise, so the density is zero for at most
one row; for every input the density lies between 0 and 200. -/
theorem c5_density_range :
    ∀ (shown : List PackageDecorator)
      (recF : PackageDescriptor → List String),
    densityPercentage (matrixCompute shown recF).1.length
        (matrixCompute shown recF).2 =
      200 * (1 - emptyFraction (matrixCompute shown recF).1.length
        (matrixCompute shown recF).2) ∧
    ((matrixCompute shown recF).1.length ≤ 1 →
      densityPercentage (matrixCompute shown recF).1.length
        (matrixCompute shown recF).2 = 0) ∧
    0 ≤ densityPercentage (matrixCompute shown recF).1.length
        (matrixCompute shown recF).2 ∧
    densityPercentage (matrixCompute shown recF).1.length
        (matrixCompute shown recF).2 ≤ 200 := by
  intro shown recF
  refine ⟨rfl, fun h => density_zero_of_le_one _ _ h, ?_⟩
  have hle : (matrixCompute shown recF).2 ≤
      (matrixCompute shown recF).1.length *
        ((matrixCompute shown recF).1.length - 1) := by
    rw [matrixCompute_length]
    exact matrix_empty_le shown recF
  exact density_bounds _ _ hle

/-- Witness for C5: with no selected node the density is zero, and on the
worked example the density lies within the bounds (it is in fact 100). -/
theorem c5_density_range_witness :
    densityPercentage
      (matrixCompute (shownDecorators noneSelectedDecorators)
        recFZero).1.length
      (matrixCompute (shownDecorators noneSelectedDecorators)
        recFZero).2 = 0 ∧
    (0 ≤ densityPercentage
        (matrixCompute (shownDecorators exampleDecorators)
          recFExample).1.length
        (matrixCompute (shownDecorators exampleDecorators)
          recFExample).2 ∧
      densityPercentage
        (matrixCompute (shownDecorators exampleDecorators)
          recFExample).1.length
        (matrixCompute (shownDecorators exampleDecorators)
          recFExample).2 ≤ 200) :=
  ⟨(c5_density_range (shownDecorators noneSelectedDecorators)
      recFZero).2.1 (by decide),
   (c5_density_range (shownDecorators exampleDecorators)
      recFExample).2.2⟩

/-! ## Decimal representation facts for node identity tokens -/

theorem str_ext (a b : String) (h : a.data = b.data) : a = b := by
  cases a with
  | mk la =>
    cases b with
    | mk lb =>
      show String.mk la = String.mk lb
      rw [show la = lb from h]

theorem foldl_digits_start :
    ∀ (l : List Char) (a : Nat),
    l.foldl (fun a c => a * 10 + digitVal c) a =
      a * 10 ^ l.length + digitsVal l := by
  intro l
  induction l with
  | nil =>
    intro a
    simp [digitsVal]
  | cons c l ih =>
    intro a
    show l.foldl _ (a * 10 + digitVal c) = a * 10 ^ (l.length + 1) + _
    rw [ih]
    have hco : digitsVal (c :: l) = digitVal c * 10 ^ l.length + digitsVal l := by
      show l.foldl _ (0 * 10 + digitVal c) = _
      rw [ih]
      simp
    rw [hco]
    ring

theorem digitVal_digitChar (n : Nat) (h : n < 10) :
    digitVal (Nat.digitChar n) = n := by
  interval_cases n <;> decide

theorem digitChar_ne_underscore (n : Nat) (h : n < 10) :
    Nat.digitChar n ≠ '_' := by
  interval_cases n <;> decide

theorem toDigitsCore_val :
    ∀ (fuel n : Nat) (ds : List Char), n < fuel →
    digitsVal (Nat.toDigitsCore 10 fuel n ds) =
      n * 10 ^ ds.length + digitsVal ds := by
  intro fuel
  induction fuel with
  | zero =>
    intro n ds h
    exact absurd h (Nat.not_lt_zero n)
  | succ fuel ih =>
    intro n ds h
    show digitsVal (if n / 10 = 0 then Nat.digitChar (n % 10) :: ds
      else Nat.toDigitsCore 10 fuel (n / 10)
        (Nat.digitChar (n % 10) :: ds)) = _
    have hm : n % 10 < 10 := Nat.mod_lt _ (by decide)
    by_cases h0 : n / 10 = 0
    · rw [if_pos h0]
      have hcons : digitsVal (Nat.digitChar (n % 10) :: ds) =
          digitVal (Nat.digitChar (n % 10)) * 10 ^ ds.length +
            digitsVal ds := by
        show ds.foldl _ (0 * 10 + digitVal (Nat.digitChar (n % 10))) = _
        rw [foldl_digits_start]
        simp
      rw [hcons, digitVal_digitChar _ hm]
      have : n % 10 = n := by omega
      rw [this]
    · rw [if_neg h0]
      have hfuel : n / 10 < fuel := by omega
      rw [ih _ _ hfuel]
      have hcons : digitsVal (Nat.digitChar (n % 10) :: ds) =
          digitVal (Nat.digitChar (n % 10)) * 10 ^ ds.length +
            digitsVal ds := by
        show ds.foldl _ (0 * 10 + digitVal (Nat.digitChar (n % 10))) = _
        rw [foldl_digits_start]
        simp
      show _ * 10 ^ (ds.length + 1) + _ = _
      rw [hcons, digitVal_digitChar _ hm, pow_succ]
      conv_rhs => rw [show n = 10 * (n / 10) + n % 10 from by omega]
      ring

theorem toDigits_val (n : Nat) : digitsVal (Nat.toDigits 10 n) = n := by
  show digitsVal (Nat.toDigitsCore 10 (n + 1) n []) = n
  rw [toDigitsCore_val (n + 1) n [] (Nat.lt_succ_self n)]
  simp [digitsVal]

theorem repr_injective_nat (m n : Nat) (h : Nat.repr m = Nat.repr n) :
    m = n := by
  have hd : Nat.toDigits 10 m = Nat.toDigits 10 n := congrArg String.data h
  have hv := congrArg digitsVal hd
  rwa [toDigits_val, toDigits_val] at hv

theorem no_underscore_toDigitsCore :
    ∀ (fuel n : Nat) (ds : List Char), '_' ∉ ds →
    '_' ∉ Nat.toDigitsCore 10 fuel n ds := by
  intro fuel
  induction fuel with
  | zero =>
    intro n ds h
    exact h
  | succ fuel ih =>
    intro n ds h
    show '_' ∉ (if n / 10 = 0 then Nat.digitChar (n % 10) :: ds
      else Nat.toDigitsCore 10 fuel (n / 10)
        (Nat.digitChar (n % 10) :: ds))
    have hne : '_' ∉ Nat.digitChar (n % 10) :: ds := by
      intro hmem
      rcases List.mem_cons.mp hmem with heq | hin
      · exact digitChar_ne_underscore (n % 10)
          (Nat.mod_lt _ (by decide)) heq.symm
      · exact h hin
    by_cases h0 : n / 10 = 0
    · rw [if_pos h0]
      exact hne
    · rw [if_neg h0]
      exact ih (n / 10) _ hne

theorem no_underscore_repr (n : Nat) : '_' ∉ (Nat.repr n).data := by
  show '_' ∉ Nat.toDigits 10 n
  exact no_underscore_toDigitsCore (n + 1) n [] (List.not_mem_nil _)

theorem sep_split (c : Char) :
    ∀ (a1 a2 b1 b2 : List Char), c ∉ a1 → c ∉ a2 →
    a1 ++ c :: b1 = a2 ++ c :: b2 → a1 = a2 ∧ b1 = b2 := by
  intro a1
  induction a1 with
  | nil =>
    intro a2 b1 b2 _ h2 heq
    cases a2 with
    | nil => simpa using heq
    | cons x t =>
      rw [List.nil_append, List.cons_append] at heq
      injection heq with hx _
      have : c ∈ x :: t := by
        rw [hx]
        exact List.mem_cons_self _ _
      exact absurd this h2
  | cons x t ih =>
    intro a2 b1 b2 h1 h2 heq
    cases a2 with
    | nil =>
      rw [List.cons_append, List.nil_append] at heq
      injection heq with hx _
      have : c ∈ x :: t := by
        rw [← hx]
        exact List.mem_cons_self _ _
      exact absurd this h1
    | cons y t2 =>
      rw [List.cons_append, List.cons_append] at heq
      injection heq with hx htl
      subst hx
      have h1t : c ∉ t := fun hm => h1 (List.mem_cons_of_mem _ hm)
      have h2t : c ∉ t2 := fun hm => h2 (List.mem_cons_of_mem _ hm)
      obtain ⟨he1, he2⟩ := ih t2 b1 b2 h1t h2t htl
      exact ⟨by rw [he1], he2⟩

theorem last_sep_split (c : Char) (l1 r1 l2 r2 : List Char)
    (h1 : c ∉ r1) (h2 : c ∉ r2)
    (heq : l1 ++ c :: r1 = l2 ++ c :: r2) : l1 = l2 ∧ r1 = r2 := by
  have hrev : r1.reverse ++ c :: l1.reverse =
      r2.reverse ++ c :: l2.reverse := by
    have hh := congrArg List.reverse heq
    simpa [List.reverse_append, List.append_assoc] using hh
  obtain ⟨ha, hb⟩ := sep_split c r1.reverse r2.reverse l1.reverse l2.reverse
    (by simpa using h1) (by simpa using h2) hrev
  constructor
  · have hh := congrArg List.reverse hb
    simpa using hh
  · have hh := congrArg List.reverse ha
    simpa using hh

theorem token_injective (n1 n2 : String) (i1 i2 : Nat)
    (h : n1 ++ "_" ++ Nat.repr i1 = n2 ++ "_" ++ Nat.repr i2) :
    n1 = n2 ∧ i1 = i2 := by
  have hdata : n1.data ++ '_' :: (Nat.repr i1).data =
      n2.data ++ '_' :: (Nat.repr i2).data := by
    have hh := congrArg String.data h
    rw [data_append, data_append, data_append, data_append] at hh
    simpa using hh
  obtain ⟨hn, hr⟩ := last_sep_split '_' n1.data (Nat.repr i1).data
    n2.data (Nat.repr i2).data (no_underscore_repr i1)
    (no_underscore_repr i2) hdata
  exact ⟨str_ext _ _ hn, repr_injective_nat _ _ (str_ext _ _ hr)⟩

/-! ## Claim C4 -/

/-- Claim C4: when no two selected nodes share a display name every node's
identity token is its plain name with no extra attribute; when duplicates
exist every node's token is the name suffixed with the per-instance unique
id and a label attribute restores the plain name; either way, node instances
with distinct identities receive distinct tokens. -/
theorem c4_node_naming :
    ∀ (decorators : List PackageDecorator),
    (has_duplicate_names decorators = false →
      ∀ d, get_node_data (has_duplicate_names decorators) d =
        (d.name, "")) ∧
    (has_duplicate_names decorators = true →
      ∀ d, get_node_data (has_duplicate_names decorators) d =
        (d.name ++ "_" ++ toString d.id,
         " [label = \"" ++ d.name ++ "\"]")) ∧
    ((∀ a ∈ (shownDecorators decorators).map (fun m => m.descriptor),
        ∀ b ∈ (shownDecorators decorators).map (fun m => m.descriptor),
        a.id = b.id → a = b) →
      ∀ a ∈ (shownDecorators decorators).map (fun m => m.descriptor),
      ∀ b ∈ (shownDecorators decorators).map (fun m => m.descriptor),
      (get_node_data (has_duplicate_names decorators) a).1 =
        (get_node_data (has_duplicate_names decorators) b).1 → a = b) := by
  intro decorators
  refine ⟨?_, ?_, ?_⟩
  · intro h d
    rw [h, get_node_data]
    rfl
  · intro h d
    rw [h, get_node_data]
    rfl
  · intro hids a ha b hb htok
    by_cases hdup : has_duplicate_names decorators = true
    · rw [hdup] at htok
      simp only [get_node_data, Bool.not_true, if_false] at htok
      obtain ⟨_, hid⟩ := token_injective a.name b.name a.id b.id htok
      exact hids a ha b hb hid
    · have hfalse : has_duplicate_names decorators = false := by
        cases hh : has_duplicate_names decorators
        · rfl
        · exact absurd hh hdup
      rw [hfalse] at htok
      simp only [get_node_data, Bool.not_false, if_true] at htok
      have hnodup : (selectedPkgNamesList decorators).Nodup := by
        rw [has_duplicate_names, decide_eq_false_iff_not, not_ne_iff]
          at hfalse
        have hsub : (selectedPkgNamesList decorators).dedup.Sublist
            (selectedPkgNamesList decorators) := List.dedup_sublist _
        have heql : (selectedPkgNamesList decorators).dedup =
            selectedPkgNamesList decorators :=
          hsub.eq_of_length hfalse.symm
        rw [← heql]
        exact List.nodup_dedup _
      have hmapn : ((shownDecorators decorators).map
          (fun m => m.descriptor)).map (fun d => d.name) =
          selectedPkgNamesList decorators := by
        rw [List.map_map]
        rfl
      exact List.inj_on_of_nodup_map (hmapn.symm ▸ hnodup) ha hb htok

/-- Witness for C4: the duplicate-free worked example keeps the plain name
for node A; the duplicate-name set suffixes the id and restores the name in
a label; and applying the distinctness part at a concrete selected
descriptor succeeds. -/
theorem c4_node_naming_witness :
    get_node_data (has_duplicate_names exampleDecorators) descA =
      ("A", "") ∧
    get_node_data (has_duplicate_names dupDecorators) descPkg1 =
      ("pkg_11", " [label = \"pkg\"]") ∧
    descPkg1 = descPkg1 :=
  ⟨by
    rw [(c4_node_naming exampleDecorators).1 (by decide) descA]
    rfl,
   by
    rw [(c4_node_naming dupDecorators).2.1 (by decide) descPkg1]
    rfl,
   (c4_node_naming dupDecorators).2.2 (by decide) descPkg1 (by decide)
     descPkg1 (by decide) rfl⟩

/-! ## Node collection and clustering lemmas -/

theorem keys_odInsert (ns : List (PackageDescriptor × FsPath))
    (k : PackageDescriptor) (v : FsPath) (k2 : PackageDescriptor) :
    k2 ∈ (odInsert ns k v).map Prod.fst ↔
      k2 ∈ ns.map Prod.fst ∨ k2 = k := by
  rw [odInsert]
  by_cases h : ns.any (fun e => e.1 = k) = true
  · rw [if_pos h]
    rw [List.any_eq_true] at h
    obtain ⟨e0, he0, hk0⟩ := h
    rw [decide_eq_true_eq] at hk0
    have hmap : (ns.map (fun e =>
        if e.1 = k then (e.1, v) else e)).map Prod.fst = ns.map Prod.fst := by
      rw [List.map_map]
      refine List.map_congr_left ?_
      intro e _
      by_cases he : e.1 = k
      · simp [he]
      · simp [he]
    rw [hmap]
    constructor
    · exact Or.inl
    · rintro (hm | hm)
      · exact hm
      · exact hm ▸ hk0 ▸ List.mem_map.mpr ⟨e0, he0, rfl⟩
  · rw [if_neg h]
    simp [List.mem_append]

theorem values_odInsert (ns : List (PackageDescriptor × FsPath))
    (k : PackageDescriptor) (v : FsPath)
    (hns : ∀ e ∈ ns, e.2 = parentDir e.1.path)
    (hv : v = parentDir k.path) :
    ∀ e ∈ odInsert ns k v, e.2 = parentDir e.1.path := by
  intro e he
  rw [odInsert] at he
  by_cases h : ns.any (fun e => e.1 = k) = true
  · rw [if_pos h] at he
    rcases List.mem_map.mp he with ⟨e0, he0, hge⟩
    by_cases hek : e0.1 = k
    · rw [if_pos hek] at hge
      rw [← hge]
      show v = parentDir e0.1.path
      rw [hek, hv]
    · rw [if_neg hek] at hge
      rw [← hge]
      exact hns e0 he0
  · rw [if_neg h] at he
    rcases List.mem_append.mp he with hm | hm
    · exact hns e hm
    · rcases List.mem_singleton.mp hm with rfl
      exact hv

theorem nodes_fold_keys (l : List PackageDecorator) :
    ∀ (ns : List (PackageDescriptor × FsPath)) (k : PackageDescriptor),
    k ∈ (l.foldl (fun ns deco =>
        if deco.selected then
          odInsert ns deco.descriptor (parentDir deco.descriptor.path)
        else ns) ns).map Prod.fst ↔
      k ∈ ns.map Prod.fst ∨
        ∃ deco ∈ l, deco.selected = true ∧ deco.descriptor = k := by
  induction l with
  | nil => intro ns k; simp
  | cons deco l ih =>
    intro ns k
    rw [List.foldl_cons]
    by_cases hs : deco.selected = true
    · rw [if_pos hs, ih, keys_odInsert]
      simp only [List.mem_cons]
      constructor
      · rintro ((hm | hm) | hm)
        · exact Or.inl hm
        · exact Or.inr ⟨deco, Or.inl rfl, hs, hm.symm⟩
        · obtain ⟨d2, hd2, hsel2, hdesc2⟩ := hm
          exact Or.inr ⟨d2, Or.inr hd2, hsel2, hdesc2⟩
      · rintro (hm | ⟨d2, hd2 | hd2, hsel2, hdesc2⟩)
        · exact Or.inl (Or.inl hm)
        · exact Or.inl (Or.inr (hd2 ▸ hdesc2).symm)
        · exact Or.inr ⟨d2, hd2, hsel2, hdesc2⟩
    · rw [if_neg hs, ih]
      simp only [List.mem_cons]
      constructor
      · rintro (hm | ⟨d2, hd2, hsel2, hdesc2⟩)
        · exact Or.inl hm
        · exact Or.inr ⟨d2, Or.inr hd2, hsel2, hdesc2⟩
      · rintro (hm | ⟨d2, hd2 | hd2, hsel2, hdesc2⟩)
        · exact Or.inl hm
        · rw [hd2] at hsel2
          exact absurd hsel2 hs
        · exact Or.inr ⟨d2, hd2, hsel2, hdesc2⟩

theorem nodes_fold_values (l : List PackageDecorator) :
    ∀ (ns : List (PackageDescriptor × FsPath)),
    (∀ e ∈ ns, e.2 = parentDir e.1.path) →
    ∀ e ∈ l.foldl (fun ns deco =>
        if deco.selected then
          odInsert ns deco.descriptor (parentDir deco.descriptor.path)
        else ns) ns, e.2 = parentDir e.1.path := by
  induction l with
  | nil => intro ns h; exact h
  | cons deco l ih =>
    intro ns h
    rw [List.foldl_cons]
    by_cases hs : deco.selected = true
    · rw [if_pos hs]
      exact ih _ (values_odInsert _ _ _ h rfl)
    · rw [if_neg hs]
      exact ih _ h

theorem mem_keys_nodesList (decorators : List PackageDecorator)
    (k : PackageDescriptor) :
    k ∈ (nodesList decorators).map Prod.fst ↔
      ∃ deco ∈ decorators, deco.selected = true ∧ deco.descriptor = k := by
  rw [nodesList, nodes_fold_keys]
  simp [List.mem_reverse]

theorem nodesList_values (decorators : List PackageDecorator) :
    ∀ e ∈ nodesList decorators, e.2 = parentDir e.1.path := by
  rw [nodesList]
  exact nodes_fold_values _ _ (by intro e he; cases he)

theorem mem_pair_nodesList (decorators : List PackageDecorator)
    (d : PackageDescriptor) (p : FsPath) :
    (d, p) ∈ nodesList decorators ↔
      (∃ deco ∈ decorators, deco.selected = true ∧ deco.descriptor = d) ∧
      p = parentDir d.path := by
  constructor
  · intro h
    constructor
    · rw [← mem_keys_nodesList]
      exact List.mem_map.mpr ⟨(d, p), h, rfl⟩
    · exact nodesList_values decorators (d, p) h
  · rintro ⟨hsel, hp⟩
    rw [← mem_keys_nodesList] at hsel
    rcases List.mem_map.mp hsel with ⟨e, he, hfst⟩
    have hval := nodesList_values decorators e he
    have : e = (d, p) := by
      rcases e with ⟨e1, e2⟩
      simp only at hfst hval
      rw [hfst] at hval ⊢
      rw [hval, hp]
    rw [← this]
    exact he

theorem mem_updSet (m : List PackageDescriptor) (x d : PackageDescriptor) :
    d ∈ (if x ∈ m then m else m ++ [x]) ↔ d ∈ m ∨ d = x := by
  by_cases hx : x ∈ m
  · rw [if_pos hx]
    constructor
    · exact Or.inl
    · rintro (hm | hm)
      · exact hm
      · exact hm ▸ hx
  · rw [if_neg hx]
    simp [List.mem_append]

theorem exists_mem_clusterAdd (cl : List (FsPath × List PackageDescriptor))
    (k : FsPath) (x : PackageDescriptor) (d : PackageDescriptor) :
    (∃ e ∈ clusterAdd cl k x, d ∈ e.2) ↔
      (∃ e ∈ cl, d ∈ e.2) ∨ d = x := by
  rw [clusterAdd]
  by_cases h : cl.any (fun e2 => e2.1 = k) = true
  · rw [if_pos h]
    rw [List.any_eq_true] at h
    obtain ⟨ek, hek, hekk⟩ := h
    rw [decide_eq_true_eq] at hekk
    constructor
    · rintro ⟨e, he, hd⟩
      rcases List.mem_map.mp he with ⟨e0, he0, hge⟩
      subst hge
      by_cases he0k : e0.1 = k
      · rw [if_pos he0k] at hd
        rcases (mem_updSet e0.2 x d).mp hd with hm | hm
        · exact Or.inl ⟨e0, he0, hm⟩
        · exact Or.inr hm
      · rw [if_neg he0k] at hd
        exact Or.inl ⟨e0, he0, hd⟩
    · rintro (⟨e0, he0, hd⟩ | hm)
      · refine ⟨if e0.1 = k then (e0.1, if x ∈ e0.2 then e0.2
          else e0.2 ++ [x]) else e0, List.mem_map.mpr ⟨e0, he0, rfl⟩, ?_⟩
        by_cases he0k : e0.1 = k
        · rw [if_pos he0k]
          exact (mem_updSet e0.2 x d).mpr (Or.inl hd)
        · rw [if_neg he0k]
          exact hd
      · refine ⟨(ek.1, if x ∈ ek.2 then ek.2 else ek.2 ++ [x]), ?_, ?_⟩
        · refine List.mem_map.mpr ⟨ek, hek, ?_⟩
          rw [if_pos hekk]
        · exact (mem_updSet ek.2 x d).mpr (Or.inr hm)
  · rw [if_neg h]
    constructor
    · rintro ⟨e2, he2, hd⟩
      rcases List.mem_append.mp he2 with hm | hm
      · exact Or.inl ⟨e2, hm, hd⟩
      · rcases List.mem_singleton.mp hm with rfl
        exact Or.inr (List.mem_singleton.mp hd)
    · rintro (⟨e2, he2, hd⟩ | hm)
      · exact ⟨e2, List.mem_append.mpr (Or.inl he2), hd⟩
      · exact ⟨(k, [d]), List.mem_append.mpr (Or.inr (by
          rw [hm]
          exact List.mem_singleton.mpr rfl)),
          List.mem_singleton.mpr rfl⟩

theorem entry_mem_clusterAdd (cl : List (FsPath × List PackageDescriptor))
    (k : FsPath) (x : PackageDescriptor) :
    ∀ e0 ∈ clusterAdd cl k x, ∀ d ∈ e0.2,
      (∃ e1 ∈ cl, e1.1 = e0.1 ∧ d ∈ e1.2) ∨ (e0.1 = k ∧ d = x) := by
  intro e0 he0 d hd
  rw [clusterAdd] at he0
  by_cases h : cl.any (fun e2 => e2.1 = k) = true
  · rw [if_pos h] at he0
    rcases List.mem_map.mp he0 with ⟨e1, he1, hge⟩
    by_cases he1k : e1.1 = k
    · rw [if_pos he1k] at hge
      subst hge
      rcases (mem_updSet e1.2 x d).mp hd with hm | hm
      · exact Or.inl ⟨e1, he1, rfl, hm⟩
      · exact Or.inr ⟨he1k, hm⟩
    · rw [if_neg he1k] at hge
      subst hge
      exact Or.inl ⟨e1, he1, rfl, hd⟩
  · rw [if_neg h] at he0
    rcases List.mem_append.mp he0 with hm | hm
    · exact Or.inl ⟨e0, hm, rfl, hd⟩
    · rcases List.mem_singleton.mp hm with rfl
      exact Or.inr ⟨rfl, List.mem_singleton.mp hd⟩

theorem keys_nodup_clusterAdd (cl : List (FsPath × List PackageDescriptor))
    (k : FsPath) (x : PackageDescriptor)
    (h : (cl.map Prod.fst).Nodup) :
    ((clusterAdd cl k x).map Prod.fst).Nodup := by
  rw [clusterAdd]
  by_cases hany : cl.any (fun e2 => e2.1 = k) = true
  · rw [if_pos hany]
    have hmap : (cl.map (fun e =>
        if e.1 = k then (e.1, if x ∈ e.2 then e.2 else e.2 ++ [x])
        else e)).map Prod.fst = cl.map Prod.fst := by
      rw [List.map_map]
      refine List.map_congr_left ?_
      intro e _
      by_cases he : e.1 = k
      · simp [he]
      · simp [he]
    rw [hmap]
    exact h
  · rw [if_neg hany]
    rw [List.map_append]
    rw [List.nodup_append]
    refine ⟨h, by simp, ?_⟩
    intro a ha hb
    simp only [List.map_cons, List.map_nil, List.mem_singleton] at hb
    subst hb
    rw [List.any_eq_true] at hany
    rcases List.mem_map.mp ha with ⟨e, he, hfst⟩
    exact hany ⟨e, he, by rw [decide_eq_true_eq, hfst]⟩

theorem clusters_fold_exists (c : FsPath) :
    ∀ (l : List (PackageDescriptor × FsPath))
      (cl : List (FsPath × List PackageDescriptor)) (d : PackageDescriptor),
    (∃ e ∈ l.foldl (fun cl dp =>
        clusterAdd cl (relativeTo dp.2 c) dp.1) cl, d ∈ e.2) ↔
      (∃ e ∈ cl, d ∈ e.2) ∨ ∃ p, (d, p) ∈ l := by
  intro l
  induction l with
  | nil =>
    intro cl d
    simp
  | cons dp l ih =>
    intro cl d
    rw [List.foldl_cons, ih, exists_mem_clusterAdd]
    constructor
    · rintro ((hm | hm) | ⟨p, hp⟩)
      · exact Or.inl hm
      · exact Or.inr ⟨dp.2, by rw [hm]; exact List.mem_cons.mpr (Or.inl rfl)⟩
      · exact Or.inr ⟨p, List.mem_cons_of_mem _ hp⟩
    · rintro (hm | ⟨p, hp⟩)
      · exact Or.inl (Or.inl hm)
      · rcases List.mem_cons.mp hp with hm2 | hm2
        · exact Or.inl (Or.inr (congrArg Prod.fst hm2))
        · exact Or.inr ⟨p, hm2⟩

theorem clusters_fold_entry_key (c : FsPath) :
    ∀ (l : List (PackageDescriptor × FsPath))
      (cl : List (FsPath × List PackageDescriptor)),
    ∀ e ∈ l.foldl (fun cl dp =>
        clusterAdd cl (relativeTo dp.2 c) dp.1) cl, ∀ d ∈ e.2,
      (∃ e0 ∈ cl, e0.1 = e.1 ∧ d ∈ e0.2) ∨
        ∃ p, (d, p) ∈ l ∧ e.1 = relativeTo p c := by
  intro l
  induction l with
  | nil =>
    intro cl e he d hd
    exact Or.inl ⟨e, he, rfl, hd⟩
  | cons dp l ih =>
    intro cl e he d hd
    rw [List.foldl_cons] at he
    rcases ih _ e he d hd with ⟨e0, he0, hkey, hd0⟩ | ⟨p, hp, hkey⟩
    · rcases entry_mem_clusterAdd cl (relativeTo dp.2 c) dp.1 e0 he0 d hd0
        with ⟨e1, he1, hkey1, hd1⟩ | ⟨hkey1, hd1⟩
      · exact Or.inl ⟨e1, he1, hkey1.trans hkey, hd1⟩
      · exact Or.inr ⟨dp.2, List.mem_cons.mpr (Or.inl (by rw [hd1])),
          hkey ▸ hkey1⟩
    · exact Or.inr ⟨p, List.mem_cons_of_mem _ hp, hkey⟩

theorem clusters_fold_keys_nodup (c : FsPath) :
    ∀ (l : List (PackageDescriptor × FsPath))
      (cl : List (FsPath × List PackageDescriptor)),
    (cl.map Prod.fst).Nodup →
    ((l.foldl (fun cl dp =>
        clusterAdd cl (relativeTo dp.2 c) dp.1) cl).map Prod.fst).Nodup := by
  intro l
  induction l with
  | nil => intro cl h; exact h
  | cons dp l ih =>
    intro cl h
    rw [List.foldl_cons]
    exact ih _ (keys_nodup_clusterAdd _ _ _ h)

theorem eq_of_mem_keys_nodup :
    ∀ (cl : List (FsPath × List PackageDescriptor)),
    (cl.map Prod.fst).Nodup →
    ∀ e1 ∈ cl, ∀ e2 ∈ cl, e1.1 = e2.1 → e1 = e2 := by
  intro cl
  induction cl with
  | nil =>
    intro _ e1 he1
    cases he1
  | cons e cl ih =>
    intro h e1 he1 e2 he2 hkey
    rw [List.map_cons, List.nodup_cons] at h
    rcases List.mem_cons.mp he1 with hm1 | hm1 <;>
      rcases List.mem_cons.mp he2 with hm2 | hm2
    · rw [hm1, hm2]
    · exfalso
      apply h.1
      exact List.mem_map.mpr ⟨e2, hm2, hkey.symm.trans
        (congrArg Prod.fst hm1)⟩
    · exfalso
      apply h.1
      exact List.mem_map.mpr ⟨e1, hm1, hkey.trans
        (congrArg Prod.fst hm2)⟩
    · exact ih h.2 e1 hm1 e2 hm2 hkey

/-! ## Claim C6 -/

/-- Claim C6: when clustering is requested and a common ancestor exists,
every selected node lies in at least one cluster and the union of the
clusters is exactly the selected node set, each cluster containing a node is
keyed by that node's parent directory relative to the common ancestor, and
no node lies in two distinct clusters; when no common path can be computed
the nodes are emitted exactly as in the unclustered mode. -/
theorem c6_clustering :
    (∀ (decorators : List PackageDecorator) (common : FsPath),
      commonPath ((nodesList decorators).map Prod.snd) = some common →
      ((∀ d, (∃ deco ∈ decorators, deco.selected = true ∧
          deco.descriptor = d) ↔
          ∃ e ∈ clustersOf (nodesList decorators) common, d ∈ e.2) ∧
       (∀ e ∈ clustersOf (nodesList decorators) common, ∀ d ∈ e.2,
          e.1 = relativeTo (parentDir d.path) common) ∧
       (∀ e1 ∈ clustersOf (nodesList decorators) common,
        ∀ e2 ∈ clustersOf (nodesList decorators) common,
        ∀ d, d ∈ e1.2 → d ∈ e2.2 → e1 = e2))) ∧
    (∀ (nodes : List (PackageDescriptor × FsPath)) (hasDup : Bool)
      (copt : Option FsPath),
      nodeLines nodes hasDup true none = nodeLines nodes hasDup false copt) := by
  constructor
  · intro decorators common _
    refine ⟨?_, ?_, ?_⟩
    · intro d
      rw [clustersOf, clusters_fold_exists]
      constructor
      · intro hsel
        refine Or.inr ⟨parentDir d.path, ?_⟩
        rw [mem_pair_nodesList]
        exact ⟨hsel, rfl⟩
      · rintro (⟨e, he, _⟩ | ⟨p, hp⟩)
        · cases he
        · exact ((mem_pair_nodesList decorators d p).mp hp).1
    · intro e he d hd
      rw [clustersOf] at he
      rcases clusters_fold_entry_key common _ _ e he d hd with
        ⟨e0, he0, _, _⟩ | ⟨p, hp, hkey⟩
      · cases he0
      · rw [hkey, ((mem_pair_nodesList decorators d p).mp hp).2]
    · intro e1 he1 e2 he2 d hd1 hd2
      have hnodup : ((clustersOf (nodesList decorators) common).map
          Prod.fst).Nodup := by
        rw [clustersOf]
        exact clusters_fold_keys_nodup common _ [] (by simp)
      have hk1 : e1.1 = relativeTo (parentDir d.path) common := by
        rw [clustersOf] at he1
        rcases clusters_fold_entry_key common _ _ e1 he1 d hd1 with
          ⟨e0, he0, _, _⟩ | ⟨p, hp, hkey⟩
        · cases he0
        · rw [hkey, ((mem_pair_nodesList decorators d p).mp hp).2]
      have hk2 : e2.1 = relativeTo (parentDir d.path) common := by
        rw [clustersOf] at he2
        rcases clusters_fold_entry_key common _ _ e2 he2 d hd2 with
          ⟨e0, he0, _, _⟩ | ⟨p, hp, hkey⟩
        · cases he0
        · rw [hkey, ((mem_pair_nodesList decorators d p).mp hp).2]
      exact eq_of_mem_keys_nodup _ hnodup e1 he1 e2 he2
        (hk1.trans hk2.symm)
  · intro nodes hasDup copt
    cases copt <;> rfl

/-- Witness for C6: on two selected nodes in sibling directories ws/grp1 and
ws/grp2 the common ancestor is ws, node x lands in a cluster, and the
degraded no-common-path rendering equals the unclustered rendering. -/
theorem c6_clustering_witness :
    commonPath ((nodesList clusterDecorators).map Prod.snd) =
      some ⟨true, ["ws"]⟩ ∧
    (∃ e ∈ clustersOf (nodesList clusterDecorators) ⟨true, ["ws"]⟩,
      descX ∈ e.2) ∧
    nodeLines (nodesList clusterDecorators) false true none =
      nodeLines (nodesList clusterDecorators) false false
        (some ⟨true, ["ws"]⟩) :=
  ⟨by decide,
   (((c6_clustering.1 clusterDecorators ⟨true, ["ws"]⟩ (by decide)).1
      descX).mp (by decide)),
   c6_clustering.2 (nodesList clusterDecorators) false
     (some ⟨true, ["ws"]⟩)⟩

/-! ## Claim C7 -/

/-- Claim C7: dot edge emission is two passes, all solid direct-edge lines
before all dashed indirect-edge lines; each edge's color expression maps the
categories present through the fixed table build to blue, run to red, test
to tan in that order, joined with a colon; and each edge is drawn from its
source to every decorator instance whose name matches the target name. -/
theorem c7_edge_emission :
    ∀ (decorators : List PackageDecorator) (hasDup : Bool)
      (direct indirect : EdgeMap),
    (edgeLines decorators hasDup direct indirect =
      direct.flatMap (fun e =>
        (decorators.filter (fun deco => deco.descriptor.name = e.1.2)).map
          (fun deco => mkEdgeLine (get_node_data hasDup e.1.1).1
            (get_node_data hasDup deco.descriptor).1 (colorsFor e.2) ""))
      ++ indirect.flatMap (fun e =>
        (decorators.filter (fun deco => deco.descriptor.name = e.1.2)).map
          (fun deco => mkEdgeLine (get_node_data hasDup e.1.1).1
            (get_node_data hasDup deco.descriptor).1 (colorsFor e.2)
            ", style=\"dashed\""))) ∧
    (∀ categories, colorsFor categories = String.intercalate ":"
      (([(Category.build, "blue"), (Category.run, "red"),
        (Category.test, "tan")].filter
          (fun p => p.1 ∈ categories)).map Prod.snd)) ∧
    (∀ e ∈ direct, ∀ deco ∈ decorators, deco.descriptor.name = e.1.2 →
      mkEdgeLine (get_node_data hasDup e.1.1).1
        (get_node_data hasDup deco.descriptor).1 (colorsFor e.2) "" ∈
        edgeLines decorators hasDup direct indirect) := by
  intro decorators hasDup direct indirect
  refine ⟨?_, fun categories => rfl, ?_⟩
  · show _ ++ (_ ++ []) = _
    rw [List.append_nil]
    rfl
  · intro e he deco hdeco hname
    show _ ∈ _ ++ (_ ++ [])
    refine List.mem_append.mpr (Or.inl ?_)
    refine List.mem_flatMap.mpr ⟨e, he, ?_⟩
    refine List.mem_map.mpr ⟨deco, ?_, rfl⟩
    rw [decoratorsNamed, List.mem_filter]
    exact ⟨hdeco, by simp [hname]⟩

/-- Witness for C7: the worked example's direct edge from A with target name
B is drawn to the decorator instance named B in the rendered edge block. -/
theorem c7_edge_emission_witness :
    mkEdgeLine (get_node_data (has_duplicate_names exampleDecorators)
        descA).1
      (get_node_data (has_duplicate_names exampleDecorators) descB).1
      (colorsFor [Category.build]) "" ∈
      edgeLines exampleDecorators (has_duplicate_names exampleDecorators)
        (directEdges exampleDecorators)
        (indirectEdges exampleDecorators (directEdges exampleDecorators)) :=
  (c7_edge_emission exampleDecorators
      (has_duplicate_names exampleDecorators)
      (directEdges exampleDecorators)
      (indirectEdges exampleDecorators (directEdges exampleDecorators))).2.2
    ((descA, "B"), [Category.build]) (by decide)
    ⟨descB, true, ["C", "D"]⟩ (by decide) (by decide)

/-! ## Claim C9 -/

theorem fold_unselected (l : List PackageDecorator)
    (h : ∀ d ∈ l, d.selected = false) :
    ∀ (ns : List (PackageDescriptor × FsPath)),
    l.foldl (fun ns deco =>
      if deco.selected then
        odInsert ns deco.descriptor (parentDir deco.descriptor.path)
      else ns) ns = ns := by
  induction l with
  | nil => intro ns; rfl
  | cons deco l ih =>
    intro ns
    rw [List.foldl_cons, if_neg (show ¬ deco.selected = true from by
      rw [h deco (List.mem_cons_self _ _)]
      exact Bool.false_ne_true)]
    exact ih (fun d hd => h d (List.mem_cons_of_mem _ hd)) ns

/-- Claim C9: with an empty selected-node set rendering completes with a
zero-row matrix, a reported density of zero, and a dot body that is exactly
the opening digraph line followed by the closing brace. -/
theorem c9_empty_selection :
    ∀ (decorators : List PackageDecorator)
      (recF : PackageDescriptor → List String) (clusterFlag : Bool),
    (∀ deco ∈ decorators, deco.selected = false) →
    (matrixCompute (shownDecorators decorators) recF).1 = [] ∧
    densityPercentage
      (matrixCompute (shownDecorators decorators) recF).1.length
      (matrixCompute (shownDecorators decorators) recF).2 = 0 ∧
    dotLines decorators clusterFlag =
      ["digraph graphname \x7b", "\x7d"] := by
  intro decorators recF clusterFlag h
  have hshown : shownDecorators decorators = [] := by
    rw [shownDecorators, List.filter_eq_nil_iff]
    intro a ha
    rw [h a ha]
    exact Bool.false_ne_true
  have hrev : ∀ d ∈ decorators.reverse, d.selected = false :=
    fun d hd => h d (List.mem_reverse.mp hd)
  have hfilter : decorators.reverse.filter (fun d => d.selected) = [] := by
    rw [List.filter_eq_nil_iff]
    intro a ha
    rw [hrev a ha]
    exact Bool.false_ne_true
  have hnodes : nodesList decorators = [] := by
    rw [nodesList]
    exact fold_unselected decorators.reverse hrev []
  have hdirect : directEdges decorators = [] := by
    rw [directEdges_eq_events, directEvents, hfilter]
    rfl
  have hindirect : indirectEdges decorators (directEdges decorators) = [] := by
    rw [indirectEdges_eq_events, indirectEvents, hfilter]
    rfl
  refine ⟨?_, ?_, ?_⟩
  · rw [hshown]
    rfl
  · rw [hshown]
    exact density_zero_of_le_one _ _ (by rw [matrixCompute_length]; decide)
  · rw [dotLines]
    rw [hnodes, hindirect, hdirect]
    have hnl : nodeLines [] (has_duplicate_names decorators) clusterFlag
        (commonPath (([] : List (PackageDescriptor × FsPath)).map
          Prod.snd)) = [] := by
      cases clusterFlag <;> rfl
    rw [hnl]
    have hel : edgeLines decorators (has_duplicate_names decorators) [] []
        = [] := rfl
    rw [hel]
    rfl

/-- Witness for C9 at a concrete node set with no selected node. -/
theorem c9_empty_selection_witness :
    (matrixCompute (shownDecorators noneSelectedDecorators)
      recFZero).1 = [] ∧
    densityPercentage
      (matrixCompute (shownDecorators noneSelectedDecorators)
        recFZero).1.length
      (matrixCompute (shownDecorators noneSelectedDecorators)
        recFZero).2 = 0 ∧
    dotLines noneSelectedDecorators false =
      ["digraph graphname \x7b", "\x7d"] :=
  c9_empty_selection noneSelectedDecorators recFZero false (by decide)

/-! ## Claim C10 -/

/-- Claim C10: node declarations cover exactly the selected nodes, while
edge fan-out resolves target names over the full decorator set; on the
duplicate-name input where a selected and an unselected node share the
depended-on name, the rendered dot output contains an edge endpoint token
that appears in no node declaration token. -/
theorem c10_fanout_unselected :
    (∀ (decorators : List PackageDecorator),
      ∀ dp ∈ nodesList decorators,
        ∃ deco ∈ decorators, deco.selected = true ∧
          deco.descriptor = dp.1) ∧
    mkEdgeLine "app_10" "pkg_13" "blue" "" ∈ dotLines dupDecorators false ∧
    "pkg_13" ∉ (nodesList dupDecorators).map (fun dp =>
      (get_node_data (has_duplicate_names dupDecorators) dp.1).1) ∧
    (∃ deco ∈ dupDecorators, deco.selected = false ∧
      deco.descriptor.name = "pkg") ∧
    (∃ deco ∈ dupDecorators, deco.selected = true ∧
      deco.descriptor.name = "pkg") := by
  refine ⟨?_, by decide, by decide, by decide, by decide⟩
  intro decorators dp hdp
  rw [← mem_keys_nodesList]
  exact List.mem_map.mpr ⟨dp, hdp, rfl⟩

/-- Witness for C10: the node declaration entry of the app descriptor stems
from a selected decorator. -/
theorem c10_fanout_unselected_witness :
    ∃ deco ∈ dupDecorators, deco.selected = true ∧
      deco.descriptor = (descApp, (⟨true, ["ws"]⟩ : FsPath)).1 :=
  c10_fanout_unselected.1 dupDecorators (descApp, ⟨true, ["ws"]⟩)
    (by decide)

end ColconList
